import Mathlib

/-!
# Verification of the `run-remote-task` task mailbox protocol

This file gives a shallow embedding, in Lean, of the core of the
`run-remote-task` program (`src/index.js`) and proves properties of it:

* the object-naming codec (`getTaskFileUrl` / the regex match in `convertUrls`),
* the task assembler (`toTasks`),
* the garbage collector (`deleteExpiredFiles`),
* the server task-execution step (`runTask`, called from `startServer`),
* the client poll loop and result consumption (`runRemoteTask`).

Conventions of the embedding:

* JavaScript epoch-millisecond timestamps embedded in object names are `Nat`
  (they are produced by `Date.getTime()` and re-parsed from the `(\d+)` group
  of the name regex, so the values flowing through the protocol are
  non-negative integers); where the code does raw timestamp arithmetic that
  can go negative (`Date.now() - taskExpirationMillis * 2`) we compute in `Int`.
* Store contents are modelled at the listing level: an object is represented
  by its decoded record `{date, taskId, inout, ext, url}` exactly as
  `convertUrls` produces it; uploads append the record that the next listing
  would decode from the uploaded name (justified by the codec round-trip
  theorem proved below).
* Effects (invoking the external command, unlinking the downloaded local
  input file, uploading result objects) are recorded explicitly in effect
  records; nondeterministic outcomes (command success/failure, signature
  verification, store-delete success) are Boolean parameters.
-/

namespace RunRemoteTask

/-- Direction field of an object name: the `(in|out)` group of the
regex `^(\d+)-(\w+)\.(in|out)\.(dat|sig|err)$` in `convertUrls`. -/
inductive Dir where
  | inn
  | out
deriving DecidableEq, Repr

/-- Kind field of an object name: the `(dat|sig|err)` group of the same regex. -/
inductive Ext where
  | dat
  | sig
  | err
deriving DecidableEq, Repr

/-- The record produced by `convertUrls` for each decodable object name:
`{ date: new Date(+date), taskId, inout, ext, url }`. Dates are epoch millis. -/
structure TaskFile where
  date : Nat
  taskId : String
  dir : Dir
  ext : Ext
  url : String
deriving DecidableEq, Repr

/-! ## Object naming codec

`getTaskFileUrl(time, taskId, inout, ext)` returns the template string
`` `${time}-${taskId}.${inout}.${ext}` ``; `convertUrls` matches each listed
name against `^(\d+)-(\w+)\.(in|out)\.(dat|sig|err)$` and decodes the groups.
-/

/-- The characters of the `in` / `out` direction token. -/
def dirChars : Dir → List Char
  | .inn => ['i', 'n']
  | .out => ['o', 'u', 't']

/-- The characters of the `dat` / `sig` / `err` kind token. -/
def extChars : Ext → List Char
  | .dat => ['d', 'a', 't']
  | .sig => ['s', 'i', 'g']
  | .err => ['e', 'r', 'r']

/-- JavaScript regex `\w` (no unicode flag): `[A-Za-z0-9_]`. -/
def isWordChar (c : Char) : Bool :=
  c.isAlphanum || c = '_'

/-- Numeric value of a decimal digit character. -/
def digitVal (c : Char) : Nat :=
  c.toNat - 48

/-- Value of a decimal digit string, as JavaScript `+string` computes it for
a string of digits (most significant first). -/
def digitsToNat (cs : List Char) : Nat :=
  cs.foldl (fun acc c => acc * 10 + digitVal c) 0

/-- Decimal rendering of a natural number, as the template literal
`` `${time}` `` renders a non-negative integer. -/
def natToDecimal (n : Nat) : List Char :=
  if h : n < 10 then
    [Nat.digitChar n]
  else
    natToDecimal (n / 10) ++ [Nat.digitChar (n % 10)]
decreasing_by
  exact Nat.div_lt_self (by omega) (by omega)

/-- `getTaskFileUrl` from `src/index.js`:
`` return `${time}-${taskId}.${inout}.${ext}`; `` (with `time = time.getTime()`). -/
def getTaskFileUrl (time : Nat) (taskId : String) (inout : Dir) (ext : Ext) : String :=
  ⟨natToDecimal time ++ '-' :: taskId.data ++ '.' :: dirChars inout ++ '.' :: extChars ext⟩

/-- Decoder for the tail of a name after `(\d+)-(\w+)\.`: the remaining
characters must be exactly one of the six `(in|out).(dat|sig|err)` tails. -/
def decodeTail (cs : List Char) : Option (Dir × Ext) :=
  if cs = dirChars .inn ++ '.' :: extChars .dat then some (.inn, .dat)
  else if cs = dirChars .inn ++ '.' :: extChars .sig then some (.inn, .sig)
  else if cs = dirChars .inn ++ '.' :: extChars .err then some (.inn, .err)
  else if cs = dirChars .out ++ '.' :: extChars .dat then some (.out, .dat)
  else if cs = dirChars .out ++ '.' :: extChars .sig then some (.out, .sig)
  else if cs = dirChars .out ++ '.' :: extChars .err then some (.out, .err)
  else none

/-- The per-name body of `convertUrls`: match the name against
`^(\d+)-(\w+)\.(in|out)\.(dat|sig|err)$` and build
`{ date: new Date(+date), taskId, inout, ext, url }`, or `undefined` on no
match.  Because `\d` and `\w` cannot match the delimiters `-` and `.`,
the regex match is equivalent to this deterministic parse: a non-empty
maximal digit run, a literal `-`, a non-empty maximal word-character run, a
literal `.`, and one of the six direction/kind tails ending the string. -/
def decodeUrl (s : String) : Option TaskFile :=
  match s.data.dropWhile Char.isDigit with
  | '-' :: rest =>
    if (s.data.takeWhile Char.isDigit).isEmpty then none
    else
      match rest.dropWhile isWordChar with
      | '.' :: tail =>
        if (rest.takeWhile isWordChar).isEmpty then none
        else
          match decodeTail tail with
          | some (d, e) =>
            some ⟨digitsToNat (s.data.takeWhile Char.isDigit),
              ⟨rest.takeWhile isWordChar⟩, d, e, s⟩
          | none => none
      | _ => none
  | _ => none

/-- `convertUrls` from `src/index.js`: decode every listed name, dropping
the ones that do not match the grammar. -/
def convertUrls (urls : List String) : List TaskFile :=
  urls.filterMap decodeUrl

/-- The object-name grammar of the wire format, stated from the spec:
`"{epochMillis}-{taskId}.{in|out}.{dat|sig|err}"` with a non-empty decimal
timestamp field and a non-empty word-character task id (neither field can
contain the delimiters `-` and `.`). -/
def InGrammar (s : String) : Prop :=
  ∃ (ts : List Char) (id : List Char) (d : Dir) (e : Ext),
    s.data = ts ++ '-' :: (id ++ '.' :: (dirChars d ++ '.' :: extChars e)) ∧
    ts ≠ [] ∧ (∀ c ∈ ts, c.isDigit) ∧
    id ≠ [] ∧ (∀ c ∈ id, isWordChar c)

/-! ## Task assembler (`toTasks`) -/

/-- The `{dat?, sig?, err?}` object `tasks[taskId][inout]` built by `toTasks`. -/
structure Slots where
  dat : Option TaskFile := none
  sig : Option TaskFile := none
  err : Option TaskFile := none
deriving DecidableEq, Repr

/-- The per-task-id group `tasks[taskId]` built by `toTasks`: each direction
subobject exists once a file of that direction has been recorded. -/
structure Group where
  inn : Option Slots := none
  out : Option Slots := none
deriving DecidableEq, Repr

/-- `tasks[taskId][inout][ext] = file`. -/
def setExt (s : Slots) (f : TaskFile) : Slots :=
  match f.ext with
  | .dat => { s with dat := some f }
  | .sig => { s with sig := some f }
  | .err => { s with err := some f }

/-- One step of the grouping loop body of `toTasks` for a single file,
on the group of that file's task id (creating the direction subobject
if absent, then setting its `ext` slot). -/
def updateGroup (g : Group) (f : TaskFile) : Group :=
  match f.dir with
  | .inn => { g with inn := some (setExt (g.inn.getD {}) f) }
  | .out => { g with out := some (setExt (g.out.getD {}) f) }

/-- One step of the grouping loop of `toTasks` on the insertion-ordered
map `tasks`: update the existing entry for `file.taskId` in place, or append
a new entry. -/
def addFile (acc : List (String × Group)) (f : TaskFile) : List (String × Group) :=
  match acc with
  | [] => [(f.taskId, updateGroup {} f)]
  | (k, g) :: rest =>
    if k = f.taskId then (k, updateGroup g f) :: rest
    else (k, g) :: addFile rest f

/-- The grouping loop of `toTasks`: `tasks` as an insertion-ordered
association list (`Object.values` enumeration order). -/
def groupFiles (files : List TaskFile) : List (String × Group) :=
  files.foldl addFile []

/-- The task records returned by `toTasks`: the surviving group spread
together with `date = task.in.sig.date` and `id = task.in.sig.taskId`. -/
structure Task where
  inn : Slots
  out : Option Slots
  date : Nat
  id : String
deriving DecidableEq, Repr

/-- The filter+map step of `toTasks`: keep groups with `task.in &&
task.in.sig && task.in.dat`, and build the task record from the `in.sig`
file. -/
def mkTask (kg : String × Group) : Option Task :=
  match kg.2.inn with
  | none => none
  | some s =>
    match s.sig, s.dat with
    | some fsig, some _ => some ⟨s, kg.2.out, fsig.date, fsig.taskId⟩
    | _, _ => none

/-- The sort comparator `(x, y) => x.date - y.date` (ascending by date);
JavaScript `Array.prototype.sort` is stable, which `List.mergeSort` models. -/
def taskLE (x y : Task) : Bool :=
  x.date ≤ y.date

/-- `toTasks` from `src/index.js`: group the listing by task id and
direction/kind, keep complete inputs, populate `date`/`id` from the input
signature object, sort ascending by date. -/
def toTasks (files : List TaskFile) : List Task :=
  ((groupFiles files).filterMap mkTask).mergeSort taskLE

/-! ## Garbage collector (`deleteExpiredFiles`) -/

/-- `deleteExpiredFiles` from `src/index.js`.  `deleteOk` models whether the
store `deleteFile` call succeeds for a given url (a failure is caught and
logged).  Returns the `res` list (files pushed in the non-expired branch,
in listing order) together with the urls successfully deleted. -/
def deleteExpiredFiles (taskExpirationMillis now : Int) (deleteOk : String → Bool) :
    List TaskFile → List TaskFile × List String
  | [] => ([], [])
  | f :: rest =>
    if (f.date : Int) < now - taskExpirationMillis * 2 then
      if deleteOk f.url then
        ((deleteExpiredFiles taskExpirationMillis now deleteOk rest).1,
          f.url :: (deleteExpiredFiles taskExpirationMillis now deleteOk rest).2)
      else
        deleteExpiredFiles taskExpirationMillis now deleteOk rest
    else
      (f :: (deleteExpiredFiles taskExpirationMillis now deleteOk rest).1,
        (deleteExpiredFiles taskExpirationMillis now deleteOk rest).2)

/-! ## Server loop and `runTask`

The server iteration is
`toTasks(await listFiles(config)).filter((task) => !task.out)` followed by
`runTask` on `tasks[0]` when present.  `listFiles` decodes the raw listing
(`convertUrls`) and sweeps it (`deleteExpiredFiles`), so here the store is a
list of decoded `TaskFile` records and an upload of
`getTaskFileUrl(task.date, task.id, 'out', ext)` appends the record the next
listing decodes from that name (see the codec round-trip theorem). -/

/-- Contents of an uploaded object, as far as the protocol model needs them:
the bytes of a successful output, the text of an error result, or a
signature produced by `sign(data, serverPrivateKey)`. -/
inductive UploadData where
  | outBytes
  | errText (s : String)
  | signature
deriving DecidableEq, Repr

/-- One `upload(config, getTaskFileUrl(...), data)` call made by
`uploadTaskResult`. -/
structure Upload where
  file : TaskFile
  data : UploadData
deriving DecidableEq, Repr

/-- The observable effects of one `runTask` call: whether `execSync` was
invoked, whether the downloaded local input file was unlinked
(`fs.unlinkSync(inFile)`), and the uploads performed. -/
structure RunEffects where
  commandInvoked : Bool
  inputUnlinked : Bool
  uploads : List Upload
deriving DecidableEq, Repr

/-- Association-list lookup for the process-local `runTask.retries` object
(`runTask.retries[task.id]`). -/
def lookupRetry (id : String) : List (String × Nat) → Option Nat
  | [] => none
  | (k, n) :: rest => if k = id then some n else lookupRetry id rest

/-- `runTask.retries[task.id] = n` (update in place or append). -/
def setRetry (id : String) (n : Nat) : List (String × Nat) → List (String × Nat)
  | [] => [(id, n)]
  | (k, m) :: rest => if k = id then (k, n) :: rest else (k, m) :: setRetry id n rest

/-- `delete runTask.retries[task.id]`. -/
def removeRetry (id : String) : List (String × Nat) → List (String × Nat)
  | [] => []
  | (k, m) :: rest => if k = id then rest else (k, m) :: removeRetry id rest

/-- The two `uploadTaskResult` uploads of a failure result for a task:
the signed error text as `out`/`err` plus `out`/`sig`. -/
def errUploads (t : Task) (msg : String) : List Upload :=
  [⟨⟨t.date, t.id, .out, .err, getTaskFileUrl t.date t.id .out .err⟩, .errText msg⟩,
   ⟨⟨t.date, t.id, .out, .sig, getTaskFileUrl t.date t.id .out .sig⟩, .signature⟩]

/-- The two `uploadTaskResult` uploads of a success result for a task:
the output bytes as `out`/`dat` plus `out`/`sig`. -/
def okUploads (t : Task) : List Upload :=
  [⟨⟨t.date, t.id, .out, .dat, getTaskFileUrl t.date t.id .out .dat⟩, .outBytes⟩,
   ⟨⟨t.date, t.id, .out, .sig, getTaskFileUrl t.date t.id .out .sig⟩, .signature⟩]

/-- Stand-in for `e.toString()` of the caught command error in `runTask`
(its exact text never matters to the protocol logic). -/
def commandErrorText : String := "Error: command failed"

/-- `runTask` from `src/index.js`, with the nondeterministic outcomes as
parameters: `sigValid` is the result of `verify(input, signature,
clientPublicKey)`, and `commandOk` tells whether `execSync(config.command)`
succeeded AND the expected output file exists (its negation is the `catch`
path).  Returns the updated `runTask.retries` table and the effects. -/
def runTask (commandRetries : Nat) (sigValid commandOk : Bool)
    (retries : List (String × Nat)) (t : Task) :
    List (String × Nat) × RunEffects :=
  if sigValid then
    if commandOk then
      (retries, ⟨true, true, okUploads t⟩)
    else
      let retryCount := (lookupRetry t.id retries).getD 0
      let retries1 := setRetry t.id (retryCount + 1) retries
      if commandRetries ≤ retryCount then
        (removeRetry t.id retries1, ⟨true, true, errUploads t commandErrorText⟩)
      else
        (retries1, ⟨true, false, []⟩)
  else
    (retries, ⟨false, true, errUploads t "Bad signature"⟩)

/-- The pending-task computation of one `startServer` iteration:
`toTasks(await listFiles(config)).filter((task) => !task.out)`, on an
already-decoded listing that `deleteExpiredFiles` has swept. -/
def pendingTasks (taskExpirationMillis now : Int) (deleteOk : String → Bool)
    (store : List TaskFile) : List Task :=
  (toTasks (deleteExpiredFiles taskExpirationMillis now deleteOk store).1).filter
    fun t => t.out.isNone

/-- One `startServer` poll iteration in which any executed command fails
(for the retry-exhaustion analysis): list+sweep, assemble, filter pending,
and if a task is selected run `runTask` on it with `sigValid = true`,
`commandOk = false`; result uploads are appended to the store. -/
def serverIterFail (commandRetries : Nat) (taskExpirationMillis now : Int)
    (deleteOk : String → Bool) (st : List TaskFile × List (String × Nat)) :
    (List TaskFile × List (String × Nat)) × RunEffects :=
  match pendingTasks taskExpirationMillis now deleteOk st.1 with
  | [] => (st, ⟨false, false, []⟩)
  | t :: _ =>
    ((st.1 ++ ((runTask commandRetries true false st.2 t).2.uploads.map Upload.file),
      (runTask commandRetries true false st.2 t).1),
      (runTask commandRetries true false st.2 t).2)

/-- Iterated failing server attempts from an initial store with no retry
state (the state after `k` poll iterations). -/
def iterFail (commandRetries : Nat) (taskExpirationMillis : Int)
    (deleteOk : String → Bool) (store0 : List TaskFile) :
    Nat → List TaskFile × List (String × Nat)
  | 0 => (store0, [])
  | k + 1 =>
    (serverIterFail commandRetries taskExpirationMillis 0 deleteOk
      (iterFail commandRetries taskExpirationMillis deleteOk store0 k)).1

/-! ## Client session

`runRemoteTask` submits `in`/`dat` and `in`/`sig`, then polls:
each cycle checks `new Date() - dt > config.taskExpirationMillis` (throwing
`'Timed out'`), sleeps, lists, and looks for
`task.id === taskId && task.out && task.out.sig`; listing errors are caught
and the loop continues.  After the loop it downloads and verifies the
result, and a `finally` block deletes every object recorded in the task. -/

/-- The `filter(...)[0]` of the client poll: first assembled task with this
id that has an `out` group containing a signature. -/
def findResolvedTask (taskId : String) (files : List TaskFile) : Option Task :=
  ((toTasks files).filter fun t =>
    t.id = taskId && (match t.out with
      | some s => s.sig.isSome
      | none => false)).head?

/-- One observed poll cycle: the value of `new Date()` at the top of the
loop, and the listing obtained afterwards (`none` models a listing/assembly
error, which is caught and logged). -/
structure PollCycle where
  now : Int
  obs : Option (List TaskFile)

/-- Terminal outcome of the client session. -/
inductive SessionOutcome where
  | success
  | remoteError
  | badSignature
  | noOutput
  | timedOut
deriving DecidableEq, Repr

/-- The urls of every object recorded in a task, over which the client's
`finally` block iterates (`for inout of ['in','out']` /
`Object.values(task[inout])`); `Object.values` order may differ, but the
same set of urls is deleted. -/
def taskUrls (t : Task) : List String :=
  ([t.inn.dat, t.inn.sig, t.inn.err].filterMap (Option.map TaskFile.url)) ++
    (match t.out with
     | some s => [s.dat, s.sig, s.err].filterMap (Option.map TaskFile.url)
     | none => [])

/-- The post-loop consumption of a found task by `runRemoteTask`:
branch on `task.out.dat` / `task.out.err`, with `verifyOk` the result of
`verify(..., runRemoteTask.serverPublicKey)`; on every branch (success,
remote error, bad signature, or no output file found) the `finally` block
deletes every object of the task before the function returns or throws. -/
def consumeTask (verifyOk : Bool) (t : Task) : SessionOutcome × List String :=
  match t.out with
  | some s =>
    match s.dat with
    | some _ =>
      if verifyOk then (.success, taskUrls t) else (.badSignature, taskUrls t)
    | none =>
      match s.err with
      | some _ =>
        if verifyOk then (.remoteError, taskUrls t) else (.badSignature, taskUrls t)
      | none => (.noOutput, taskUrls t)
  | none => (.noOutput, taskUrls t)

/-- The client poll loop over a finite sequence of observed cycles:
timeout check first, then the listing, then the resolved-task filter;
`none` means the modelled observation sequence ran out while the loop was
still polling. -/
def pollLoop (taskExpirationMillis dt : Int) (taskId : String) :
    List PollCycle → Option (SessionOutcome ⊕ Task)
  | [] => none
  | c :: rest =>
    if taskExpirationMillis < c.now - dt then some (.inl .timedOut)
    else
      match c.obs with
      | none => pollLoop taskExpirationMillis dt taskId rest
      | some files =>
        match findResolvedTask taskId files with
        | some t => some (.inr t)
        | none => pollLoop taskExpirationMillis dt taskId rest

/-- The whole client session after submission: poll, then consume.  Returns
the terminal outcome together with the urls the session deleted; a timeout
is thrown from inside the loop, before any deletion. -/
def clientSession (taskExpirationMillis dt : Int) (taskId : String)
    (verifyOk : Bool) (cycles : List PollCycle) :
    Option (SessionOutcome × List String) :=
  match pollLoop taskExpirationMillis dt taskId cycles with
  | none => none
  | some (.inl o) => some (o, [])
  | some (.inr t) => some (consumeTask verifyOk t)

/-! ## Derived definitions used by the analysis -/

/-- Generic insertion-ordered association-list lookup (JS object property
read, property order being first-insertion order for these string keys). -/
def lookupKey {β : Type} (k : String) : List (String × β) → Option β
  | [] => none
  | (k2, v) :: rest => if k2 = k then some v else lookupKey k rest

/-- The file is an input-signature object (`in`/`sig`). -/
def isInSig (f : TaskFile) : Bool :=
  f.dir = Dir.inn && f.ext = Ext.sig

/-- The file is an input-data object (`in`/`dat`). -/
def isInDat (f : TaskFile) : Bool :=
  f.dir = Dir.inn && f.ext = Ext.dat

/-- The file is an output-direction object of any kind. -/
def isOutFile (f : TaskFile) : Bool :=
  f.dir = Dir.out

/-- The file belongs to the task with id `k`. -/
def forTask (k : String) (f : TaskFile) : Bool :=
  f.taskId = k

/-- The input-signature slot of a group (`tasks[id].in && tasks[id].in.sig`). -/
def innSig (g : Group) : Option TaskFile :=
  match g.inn with
  | some s => s.sig
  | none => none

/-- The input-data slot of a group (`tasks[id].in && tasks[id].in.dat`). -/
def innDat (g : Group) : Option TaskFile :=
  match g.inn with
  | some s => s.dat
  | none => none

/-- The store contents after a client submitted one task: `in`/`dat` then
`in`/`sig` at timestamp `d` under task id `id` (decoded listing records of
the two uploaded objects). -/
def retryStore (d : Nat) (id u1 u2 : String) : List TaskFile :=
  [⟨d, id, .inn, .dat, u1⟩, ⟨d, id, .inn, .sig, u2⟩]

/-- The single task the assembler builds from `retryStore`. -/
def retryTask (d : Nat) (id u1 u2 : String) : Task :=
  ⟨⟨some ⟨d, id, .inn, .dat, u1⟩, some ⟨d, id, .inn, .sig, u2⟩, none⟩, none, d, id⟩

/-- The store contents after retry exhaustion published the signed error
result for the task of `retryStore`. -/
def exhaustStore (d : Nat) (id u1 u2 : String) : List TaskFile :=
  retryStore d id u1 u2 ++ (errUploads (retryTask d id u1 u2) commandErrorText).map Upload.file

/-- Sample resolved output slots (an error result) for the client-cleanup
witness. -/
def sampleOutSlots : Slots :=
  ⟨none, some ⟨7, "a", .out, .sig, "u4"⟩, some ⟨7, "a", .out, .err, "u3"⟩⟩

/-- Sample resolved task for the client-cleanup witness. -/
def sampleTask : Task :=
  ⟨⟨some ⟨7, "a", .inn, .dat, "u1"⟩, some ⟨7, "a", .inn, .sig, "u2"⟩, none⟩,
    some sampleOutSlots, 7, "a"⟩

/-- Sample store listing for the client-cleanup witness: the four objects of
the sample task plus an unrelated task's object. -/
def sampleStore : List TaskFile :=
  [⟨7, "a", .inn, .dat, "u1"⟩, ⟨7, "a", .inn, .sig, "u2"⟩,
   ⟨7, "a", .out, .err, "u3"⟩, ⟨7, "a", .out, .sig, "u4"⟩,
   ⟨9, "b", .inn, .dat, "x1"⟩]

/-! ## Codec lemmas -/

theorem digitChar_isDigit {n : Nat} (h : n < 10) : (Nat.digitChar n).isDigit = true := by
  interval_cases n <;> decide

theorem digitVal_digitChar {n : Nat} (h : n < 10) : digitVal (Nat.digitChar n) = n := by
  interval_cases n <;> decide

theorem natToDecimal_ne_nil (n : Nat) : natToDecimal n ≠ [] := by
  rw [natToDecimal]
  split <;> simp

theorem natToDecimal_isDigit (n : Nat) : ∀ c ∈ natToDecimal n, c.isDigit := by
  induction n using Nat.strong_induction_on with
  | _ n ih =>
    rw [natToDecimal]
    split
    · next h =>
      intro c hc
      simp only [List.mem_singleton] at hc
      subst hc
      exact digitChar_isDigit h
    · next h =>
      intro c hc
      rcases List.mem_append.mp hc with hc | hc
      · exact ih (n / 10) (Nat.div_lt_self (by omega) (by omega)) c hc
      · simp only [List.mem_singleton] at hc
        subst hc
        exact digitChar_isDigit (Nat.mod_lt _ (by omega))

theorem digitsToNat_append (xs : List Char) (c : Char) :
    digitsToNat (xs ++ [c]) = digitsToNat xs * 10 + digitVal c := by
  simp [digitsToNat, List.foldl_append]

theorem digitsToNat_natToDecimal (n : Nat) : digitsToNat (natToDecimal n) = n := by
  induction n using Nat.strong_induction_on with
  | _ n ih =>
    rw [natToDecimal]
    split
    · next h =>
      simp [digitsToNat, digitVal_digitChar h]
    · next h =>
      rw [digitsToNat_append, ih (n / 10) (Nat.div_lt_self (by omega) (by omega)),
        digitVal_digitChar (Nat.mod_lt _ (by omega))]
      omega

theorem takeWhile_all_append {p : Char → Bool} {xs : List Char} (hxs : ∀ c ∈ xs, p c)
    {y : Char} (hy : ¬ p y) (ys : List Char) :
    (xs ++ y :: ys).takeWhile p = xs := by
  induction xs with
  | nil => simp [hy]
  | cons a as ihx =>
    have ha : p a := hxs a (by simp)
    simp only [List.cons_append, List.takeWhile_cons_of_pos ha, List.cons.injEq, true_and]
    exact ihx fun c hc => hxs c (by simp [hc])

theorem dropWhile_all_append {p : Char → Bool} {xs : List Char} (hxs : ∀ c ∈ xs, p c)
    {y : Char} (hy : ¬ p y) (ys : List Char) :
    (xs ++ y :: ys).dropWhile p = y :: ys := by
  induction xs with
  | nil => simp [hy]
  | cons a as ihx =>
    have ha : p a := hxs a (by simp)
    simp only [List.cons_append, List.dropWhile_cons_of_pos ha]
    exact ihx fun c hc => hxs c (by simp [hc])

theorem decodeTail_append (d : Dir) (e : Ext) :
    decodeTail (dirChars d ++ '.' :: extChars e) = some (d, e) := by
  cases d <;> cases e <;> rfl

theorem decodeTail_eq_some {cs : List Char} {d : Dir} {e : Ext}
    (h : decodeTail cs = some (d, e)) :
    cs = dirChars d ++ '.' :: extChars e := by
  unfold decodeTail at h
  split_ifs at h <;> simp_all

/-- Round trip of the codec: an encoded name decodes to exactly the encoded
fields (for a non-empty word-character task id). -/
theorem decodeUrl_getTaskFileUrl (t : Nat) (id : String) (hid : id.data ≠ [])
    (hw : ∀ c ∈ id.data, isWordChar c) (d : Dir) (e : Ext) :
    decodeUrl (getTaskFileUrl t id d e) =
      some ⟨t, id, d, e, getTaskFileUrl t id d e⟩ := by
  have hdata : (getTaskFileUrl t id d e).data =
      natToDecimal t ++ '-' :: (id.data ++ '.' :: (dirChars d ++ '.' :: extChars e)) := by
    simp [getTaskFileUrl]
  have h1 : ((getTaskFileUrl t id d e).data).takeWhile Char.isDigit = natToDecimal t := by
    rw [hdata]
    exact takeWhile_all_append (natToDecimal_isDigit t) (by decide) _
  have h2 : ((getTaskFileUrl t id d e).data).dropWhile Char.isDigit =
      '-' :: (id.data ++ '.' :: (dirChars d ++ '.' :: extChars e)) := by
    rw [hdata]
    exact dropWhile_all_append (natToDecimal_isDigit t) (by decide) _
  have h3 : (id.data ++ '.' :: (dirChars d ++ '.' :: extChars e)).takeWhile isWordChar
      = id.data :=
    takeWhile_all_append hw (by decide) _
  have h4 : (id.data ++ '.' :: (dirChars d ++ '.' :: extChars e)).dropWhile isWordChar
      = '.' :: (dirChars d ++ '.' :: extChars e) :=
    dropWhile_all_append hw (by decide) _
  have hne : (natToDecimal t).isEmpty = false := by
    simp [List.isEmpty_iff, natToDecimal_ne_nil t]
  have hne2 : (id.data).isEmpty = false := by
    simp [List.isEmpty_iff, hid]
  simp only [decodeUrl, h1, h2, h3, h4, hne, hne2, decodeTail_append, Bool.false_eq_true,
    if_false, digitsToNat_natToDecimal]

/-- Any name in the wire-format grammar decodes successfully. -/
theorem inGrammar_decode_isSome {s : String} (h : InGrammar s) : (decodeUrl s).isSome := by
  obtain ⟨ts, id, d, e, hdec, hts, htsd, hid, hidw⟩ := h
  have h1 : s.data.takeWhile Char.isDigit = ts := by
    rw [hdec]
    exact takeWhile_all_append htsd (by decide) _
  have h2 : s.data.dropWhile Char.isDigit
      = '-' :: (id ++ '.' :: (dirChars d ++ '.' :: extChars e)) := by
    rw [hdec]
    exact dropWhile_all_append htsd (by decide) _
  have h3 : (id ++ '.' :: (dirChars d ++ '.' :: extChars e)).takeWhile isWordChar = id :=
    takeWhile_all_append hidw (by decide) _
  have h4 : (id ++ '.' :: (dirChars d ++ '.' :: extChars e)).dropWhile isWordChar
      = '.' :: (dirChars d ++ '.' :: extChars e) :=
    dropWhile_all_append hidw (by decide) _
  have hne : ts.isEmpty = false := by simp [List.isEmpty_iff, hts]
  have hne2 : id.isEmpty = false := by simp [List.isEmpty_iff, hid]
  simp only [decodeUrl, h1, h2, h3, h4, hne, hne2, decodeTail_append, Bool.false_eq_true,
    if_false, Option.isSome_some]

/-- A name that decodes successfully is in the wire-format grammar. -/
theorem decode_inGrammar {s : String} {f : TaskFile} (h : decodeUrl s = some f) :
    InGrammar s := by
  unfold decodeUrl at h
  split at h
  next rest heq =>
    by_cases hds : (s.data.takeWhile Char.isDigit).isEmpty
    · rw [if_pos hds] at h
      exact absurd h (by simp)
    · rw [if_neg hds] at h
      split at h
      next tail heq2 =>
        by_cases hws : (rest.takeWhile isWordChar).isEmpty
        · rw [if_pos hws] at h
          exact absurd h (by simp)
        · rw [if_neg hws] at h
          split at h
          next d e heq3 =>
            refine ⟨s.data.takeWhile Char.isDigit, rest.takeWhile isWordChar, d, e,
              ?_, ?_, ?_, ?_, ?_⟩
            · conv_lhs =>
                rw [← List.takeWhile_append_dropWhile (p := Char.isDigit) (l := s.data)]
              rw [heq]
              have hr : rest = rest.takeWhile isWordChar ++ rest.dropWhile isWordChar :=
                (List.takeWhile_append_dropWhile _ _).symm
              rw [decodeTail_eq_some heq3] at heq2
              conv_lhs => rw [hr, heq2]
            · simpa [List.isEmpty_iff] using hds
            · intro c hc
              exact List.mem_takeWhile_imp hc
            · simpa [List.isEmpty_iff] using hws
            · intro c hc
              exact List.mem_takeWhile_imp hc
          next heq3 => exact absurd h (by simp)
      next x heq2 => exact absurd h (by simp)
  next x heq => exact absurd h (by simp)

/-- C6: for every timestamp, every non-empty taskId consisting only of word
characters, every direction in `{in, out}` and every kind in
`{dat, sig, err}`, decoding the name produced by the encoder
(`getTaskFileUrl`) returns exactly that `(timestamp, taskId, direction,
kind)` tuple; and decoding any name that does not match the grammar
`"{epochMillis}-{taskId}.{in|out}.{dat|sig|err}"` returns none. -/
theorem c6_codec_round_trip (t : Nat) (id : String) (hid : id.data ≠ [])
    (hw : ∀ c ∈ id.data, isWordChar c) (d : Dir) (e : Ext)
    (s : String) (hs : ¬ InGrammar s) :
    decodeUrl (getTaskFileUrl t id d e) =
      some ⟨t, id, d, e, getTaskFileUrl t id d e⟩ ∧
    decodeUrl s = none := by
  refine ⟨decodeUrl_getTaskFileUrl t id hid hw d e, ?_⟩
  cases hopt : decodeUrl s with
  | none => rfl
  | some f => exact absurd (decode_inGrammar hopt) hs

/-- Witness for C6 at timestamp `1587502868000`, task id `a7`, direction
`in`, kind `dat`, and the undecodable name `task%name`. -/
theorem c6_codec_round_trip_witness :
    decodeUrl (getTaskFileUrl 1587502868000 "a7" .inn .dat) =
      some ⟨1587502868000, "a7", .inn, .dat, getTaskFileUrl 1587502868000 "a7" .inn .dat⟩ ∧
    decodeUrl "task%name" = none := by
  have hng : ¬ InGrammar "task%name" := fun h => by
    have h2 := inGrammar_decode_isSome h
    rw [show decodeUrl "task%name" = none from by decide] at h2
    simp at h2
  exact c6_codec_round_trip 1587502868000 "a7" (by decide) (by decide) .inn .dat
    "task%name" hng

/-! ## Association-list lemmas for the grouping loop of `toTasks` -/

theorem lookupKey_addFile (acc : List (String × Group)) (f : TaskFile) (k : String) :
    lookupKey k (addFile acc f) =
      if f.taskId = k then some (updateGroup ((lookupKey k acc).getD {}) f)
      else lookupKey k acc := by
  induction acc with
  | nil =>
    by_cases h : f.taskId = k <;> simp [addFile, lookupKey, h]
  | cons kv rest ih =>
    obtain ⟨k2, g⟩ := kv
    by_cases h2 : k2 = f.taskId
    · subst h2
      by_cases h : f.taskId = k <;> simp [addFile, lookupKey, h]
    · by_cases h : k2 = k
      · subst h
        have hfk : ¬ f.taskId = k2 := fun hc => h2 hc.symm
        simp [addFile, lookupKey, h2, hfk]
      · simp [addFile, lookupKey, h2, h, ih]

theorem lookupKey_foldl_addFile (files : List TaskFile) (acc : List (String × Group))
    (k : String) :
    lookupKey k (files.foldl addFile acc) =
      (files.filter (forTask k)).foldl (fun og f => some (updateGroup (og.getD {}) f))
        (lookupKey k acc) := by
  induction files generalizing acc with
  | nil => simp
  | cons f rest ih =>
    rw [List.foldl_cons, ih, List.filter_cons]
    by_cases hf : forTask k f
    · rw [if_pos hf, List.foldl_cons, lookupKey_addFile,
        if_pos (show f.taskId = k by simpa [forTask] using hf)]
    · rw [if_neg hf, lookupKey_addFile,
        if_neg (show ¬ f.taskId = k by simpa [forTask] using hf)]

theorem optFoldl_updateGroup_some (fs : List TaskFile) (g : Group) :
    fs.foldl (fun og f => some (updateGroup (og.getD {}) f)) (some g) =
      some (fs.foldl updateGroup g) := by
  induction fs generalizing g with
  | nil => rfl
  | cons f rest ih => simp [List.foldl_cons, ih]

theorem lookupKey_groupFiles (files : List TaskFile) (k : String) :
    lookupKey k (groupFiles files) =
      match files.filter (forTask k) with
      | [] => none
      | f :: fs => some ((f :: fs).foldl updateGroup {}) := by
  have h0 : lookupKey k ([] : List (String × Group)) = none := rfl
  rw [groupFiles, lookupKey_foldl_addFile, h0]
  cases hf : files.filter (forTask k) with
  | nil => rfl
  | cons f fs =>
    simpa using optFoldl_updateGroup_some fs (updateGroup {} f)

theorem lookupKey_eq_none_of_not_mem {β : Type} {acc : List (String × β)} {k : String}
    (h : k ∉ acc.map Prod.fst) : lookupKey k acc = none := by
  induction acc with
  | nil => rfl
  | cons kv rest ih =>
    obtain ⟨k2, v⟩ := kv
    simp only [List.map_cons, List.mem_cons] at h
    push_neg at h
    have h2 : ¬ k2 = k := fun hc => h.1 hc.symm
    rw [lookupKey, if_neg h2]
    exact ih h.2

theorem mem_of_lookupKey_eq_some {β : Type} {acc : List (String × β)} {k : String} {v : β}
    (h : lookupKey k acc = some v) : (k, v) ∈ acc := by
  induction acc with
  | nil => simp [lookupKey] at h
  | cons kv rest ih =>
    obtain ⟨k2, v2⟩ := kv
    by_cases h2 : k2 = k
    · subst h2
      rw [lookupKey, if_pos rfl] at h
      injection h with h
      subst h
      simp
    · rw [lookupKey, if_neg h2] at h
      exact List.mem_cons_of_mem _ (ih h)

theorem lookupKey_eq_some_of_mem {β : Type} {acc : List (String × β)} {k : String} {v : β}
    (hnd : (acc.map Prod.fst).Nodup) (h : (k, v) ∈ acc) : lookupKey k acc = some v := by
  induction acc with
  | nil => simp at h
  | cons kv rest ih =>
    obtain ⟨k2, v2⟩ := kv
    have hnd2 : k2 ∉ rest.map Prod.fst ∧ (rest.map Prod.fst).Nodup :=
      List.nodup_cons.mp (by simpa using hnd)
    rcases List.mem_cons.mp h with h | h
    · rw [Prod.mk.injEq] at h
      obtain ⟨rfl, rfl⟩ := h
      simp [lookupKey]
    · have hk2 : k2 ≠ k := by
        intro hc
        subst hc
        exact hnd2.1 (List.mem_map.mpr ⟨(k2, v), h, rfl⟩)
      rw [lookupKey, if_neg hk2]
      exact ih hnd2.2 h

theorem not_mem_keys_of_lookupKey_eq_none {β : Type} {acc : List (String × β)} {k : String}
    (h : lookupKey k acc = none) : k ∉ acc.map Prod.fst := by
  induction acc with
  | nil => simp
  | cons kv rest ih =>
    obtain ⟨k2, v2⟩ := kv
    by_cases h2 : k2 = k
    · subst h2
      simp [lookupKey] at h
    · rw [lookupKey, if_neg h2] at h
      simp only [List.map_cons, List.mem_cons]
      push_neg
      exact ⟨fun hc => h2 hc.symm, ih h⟩

theorem keys_addFile (acc : List (String × Group)) (f : TaskFile) :
    (addFile acc f).map Prod.fst =
      if (lookupKey f.taskId acc).isSome then acc.map Prod.fst
      else acc.map Prod.fst ++ [f.taskId] := by
  induction acc with
  | nil => simp [addFile, lookupKey]
  | cons kv rest ih =>
    obtain ⟨k2, g⟩ := kv
    by_cases h2 : k2 = f.taskId
    · subst h2
      simp [addFile, lookupKey]
    · have h2s : ¬ (k2 = f.taskId) := h2
      rw [addFile]
      rw [if_neg h2s]
      simp only [List.map_cons, lookupKey, if_neg h2s, ih]
      by_cases hs : (lookupKey f.taskId rest).isSome
      · rw [if_pos hs, if_pos hs]
      · rw [if_neg hs, if_neg hs, List.cons_append]

theorem nodup_keys_foldl_addFile (files : List TaskFile) (acc : List (String × Group))
    (hnd : (acc.map Prod.fst).Nodup) :
    ((files.foldl addFile acc).map Prod.fst).Nodup := by
  induction files generalizing acc with
  | nil => simpa using hnd
  | cons f rest ih =>
    rw [List.foldl_cons]
    refine ih _ ?_
    rw [keys_addFile]
    by_cases hs : (lookupKey f.taskId acc).isSome
    · rwa [if_pos hs]
    · rw [if_neg hs]
      have hnm : f.taskId ∉ acc.map Prod.fst :=
        not_mem_keys_of_lookupKey_eq_none (Option.not_isSome_iff_eq_none.mp hs)
      simp [List.nodup_append, hnd, hnm]

theorem nodup_keys_groupFiles (files : List TaskFile) :
    ((groupFiles files).map Prod.fst).Nodup :=
  nodup_keys_foldl_addFile files [] (by simp)

/-! ## Group content lemmas -/

theorem innSig_updateGroup (g : Group) (f : TaskFile) :
    innSig (updateGroup g f) = if isInSig f then some f else innSig g := by
  cases hdir : f.dir <;> cases hext : f.ext <;> cases hg : g.inn <;>
    simp [updateGroup, setExt, innSig, isInSig, hdir, hext, hg]

theorem innDat_updateGroup (g : Group) (f : TaskFile) :
    innDat (updateGroup g f) = if isInDat f then some f else innDat g := by
  cases hdir : f.dir <;> cases hext : f.ext <;> cases hg : g.inn <;>
    simp [updateGroup, setExt, innDat, isInDat, hdir, hext, hg]

theorem out_updateGroup_isSome (g : Group) (f : TaskFile) :
    (updateGroup g f).out.isSome = (g.out.isSome || isOutFile f) := by
  cases hdir : f.dir <;> simp [updateGroup, isOutFile, hdir]

theorem innSig_foldl (fs : List TaskFile) (g : Group) :
    innSig (fs.foldl updateGroup g) = ((fs.filter isInSig).getLast?).or (innSig g) := by
  induction fs generalizing g with
  | nil => simp
  | cons f rest ih =>
    rw [List.foldl_cons, ih, innSig_updateGroup, List.filter_cons]
    by_cases hf : isInSig f
    · rw [if_pos hf, if_pos hf]
      cases hrest : rest.filter isInSig with
      | nil => simp
      | cons a as =>
        have : (a :: as).getLast?.isSome := by
          rw [List.getLast?_isSome]
          simp
        obtain ⟨x, hx⟩ := Option.isSome_iff_exists.mp this
        simp [List.getLast?_cons_cons, hx]
    · rw [if_neg hf, if_neg hf]

theorem innDat_foldl (fs : List TaskFile) (g : Group) :
    innDat (fs.foldl updateGroup g) = ((fs.filter isInDat).getLast?).or (innDat g) := by
  induction fs generalizing g with
  | nil => simp
  | cons f rest ih =>
    rw [List.foldl_cons, ih, innDat_updateGroup, List.filter_cons]
    by_cases hf : isInDat f
    · rw [if_pos hf, if_pos hf]
      cases hrest : rest.filter isInDat with
      | nil => simp
      | cons a as =>
        have : (a :: as).getLast?.isSome := by
          rw [List.getLast?_isSome]
          simp
        obtain ⟨x, hx⟩ := Option.isSome_iff_exists.mp this
        simp [List.getLast?_cons_cons, hx]
    · rw [if_neg hf, if_neg hf]

theorem out_foldl_isSome (fs : List TaskFile) (g : Group) :
    (fs.foldl updateGroup g).out.isSome = (g.out.isSome || fs.any isOutFile) := by
  induction fs generalizing g with
  | nil => simp
  | cons f rest ih =>
    rw [List.foldl_cons, ih, out_updateGroup_isSome, List.any_cons, Bool.or_assoc]

/-- Content of the group stored for key `k` in terms of the listing. -/
theorem group_content {files : List TaskFile} {k : String} {g : Group}
    (h : lookupKey k (groupFiles files) = some g) :
    innSig g = ((files.filter (forTask k)).filter isInSig).getLast? ∧
    innDat g = ((files.filter (forTask k)).filter isInDat).getLast? ∧
    g.out.isSome = (files.filter (forTask k)).any isOutFile := by
  rw [lookupKey_groupFiles] at h
  cases hf : files.filter (forTask k) with
  | nil =>
    rw [hf] at h
    simp at h
  | cons f fs =>
    rw [hf] at h
    injection h with h
    subst h
    refine ⟨?_, ?_, ?_⟩
    · rw [innSig_foldl]
      simp [innSig]
    · rw [innDat_foldl]
      simp [innDat]
    · rw [out_foldl_isSome]
      simp

theorem mkTask_eq_some_iff {k : String} {g : Group} {t : Task} :
    mkTask (k, g) = some t ↔
      ∃ s fsig fdat, g.inn = some s ∧ s.sig = some fsig ∧ s.dat = some fdat ∧
        t = ⟨s, g.out, fsig.date, fsig.taskId⟩ := by
  unfold mkTask
  cases hg : g.inn with
  | none => simp
  | some s =>
    cases hs : s.sig with
    | none => simp [hs]
    | some fsig =>
      cases hd : s.dat with
      | none => simp [hs, hd]
      | some fdat =>
        simp only [hs, hd]
        constructor
        · intro h
          injection h with h
          exact ⟨s, fsig, fdat, rfl, hs, hd, h.symm⟩
        · rintro ⟨s2, fsig2, fdat2, hs2, hsig2, hdat2, ht⟩
          injection hs2 with hs2
          subst hs2
          rw [hs] at hsig2
          injection hsig2 with hsig2
          subst hsig2
          rw [ht]

theorem mkTask_eq_none_of_innSig_none {k : String} {g : Group}
    (h : innSig g = none) : mkTask (k, g) = none := by
  unfold mkTask
  unfold innSig at h
  cases hg : g.inn with
  | none => rfl
  | some s =>
    rw [hg] at h
    have h2 : s.sig = none := h
    simp [h2]

theorem mkTask_fields {k : String} {g : Group} {t : Task}
    (h : mkTask (k, g) = some t) :
    ∃ fsig, innSig g = some fsig ∧ t.date = fsig.date ∧ t.id = fsig.taskId ∧
      t.out = g.out := by
  obtain ⟨s, fsig, fdat, hg, hsig, hdat, ht⟩ := mkTask_eq_some_iff.mp h
  subst ht
  exact ⟨fsig, by simp [innSig, hg, hsig], rfl, rfl, rfl⟩

/-! ## The assembled task list -/

/-- In `groupFiles files`, a surviving group's task carries its own key as
id: the id comes from the stored `in.sig` file, which was grouped under its
own `taskId`. -/
theorem mkTask_id_eq_key {files : List TaskFile} {k : String} {g : Group} {t : Task}
    (hmem : (k, g) ∈ groupFiles files) (hmk : mkTask (k, g) = some t) :
    t.id = k ∧ t.date = (((files.filter (forTask k)).filter isInSig).getLast?.map
      TaskFile.date).getD 0 ∧ t.out = g.out := by
  have hlk : lookupKey k (groupFiles files) = some g :=
    lookupKey_eq_some_of_mem (nodup_keys_groupFiles files) hmem
  obtain ⟨hsig, _, _⟩ := group_content hlk
  obtain ⟨fsig, hfs, hdate, hid, hout⟩ := mkTask_fields hmk
  rw [hfs] at hsig
  have hfsmem : fsig ∈ (files.filter (forTask k)).filter isInSig :=
    List.mem_of_getLast?_eq_some hsig.symm
  have hfk : forTask k fsig := (List.mem_filter.mp (List.mem_filter.mp hfsmem).1).2
  refine ⟨?_, ?_, hout⟩
  · rw [hid]
    simpa [forTask] using hfk
  · rw [← hsig]
    simpa using hdate

theorem filterMap_mkTask_filter {l : List (String × Group)} (A : String)
    (hnd : (l.map Prod.fst).Nodup)
    (hid : ∀ kg ∈ l, ∀ t, mkTask kg = some t → t.id = kg.1) :
    (l.filterMap mkTask).filter (fun t => t.id = A) =
      ((lookupKey A l).bind fun g => mkTask (A, g)).toList := by
  induction l with
  | nil => rfl
  | cons kg rest ih =>
    obtain ⟨k, g⟩ := kg
    have hnd2 : k ∉ rest.map Prod.fst ∧ (rest.map Prod.fst).Nodup :=
      List.nodup_cons.mp (by simpa using hnd)
    have hrest := ih hnd2.2 (fun kg2 hm => hid kg2 (List.mem_cons_of_mem _ hm))
    rw [List.filterMap_cons]
    cases hmk : mkTask (k, g) with
    | none =>
      by_cases hkA : k = A
      · subst hkA
        rw [hrest, lookupKey_eq_none_of_not_mem hnd2.1]
        rw [lookupKey, if_pos rfl]
        simp [hmk]
      · rw [hrest, lookupKey, if_neg hkA]
    | some t =>
      have ht : t.id = k := hid (k, g) (List.mem_cons_self _ _) t hmk
      rw [List.filter_cons]
      by_cases hkA : k = A
      · subst hkA
        rw [if_pos (by simp [ht])]
        rw [hrest, lookupKey_eq_none_of_not_mem hnd2.1]
        rw [lookupKey, if_pos rfl]
        simp [hmk]
      · rw [if_neg (by simp [ht, hkA])]
        rw [hrest, lookupKey, if_neg hkA]

/-- The tasks of `toTasks files` with a given id, as an explicit option:
the (at most one) task assembled from the group stored under that id. -/
theorem toTasks_filter_id (files : List TaskFile) (A : String) :
    (toTasks files).filter (fun t => t.id = A) =
      ((lookupKey A (groupFiles files)).bind fun g => mkTask (A, g)).toList := by
  have hid : ∀ kg ∈ groupFiles files, ∀ t, mkTask kg = some t → t.id = kg.1 := by
    intro kg hm t hmk
    obtain ⟨k, g⟩ := kg
    exact (mkTask_id_eq_key hm hmk).1
  have hperm : List.Perm (toTasks files) ((groupFiles files).filterMap mkTask) :=
    List.mergeSort_perm _ _
  have h2 := hperm.filter (fun t => t.id = A)
  rw [filterMap_mkTask_filter A (nodup_keys_groupFiles files) hid] at h2
  cases htl : ((lookupKey A (groupFiles files)).bind fun g => mkTask (A, g)).toList with
  | nil =>
    rw [htl] at h2
    exact List.perm_nil.mp h2
  | cons x xs =>
    rw [htl] at h2
    cases hx : (lookupKey A (groupFiles files)).bind fun g => mkTask (A, g) with
    | none => rw [hx] at htl; simp at htl
    | some t =>
      rw [hx] at htl
      simp only [Option.toList_some] at htl
      injection htl with h3 h4
      subst h3
      subst h4
      exact List.perm_singleton.mp h2

/-- A task id with exactly one `in`/`sig` object and at least one `in`/`dat`
object in the listing yields exactly one assembled task, populated from the
signature object. -/
theorem toTasks_complete {files : List TaskFile} {A : String} {fsig : TaskFile}
    (h1 : files.filter (fun f => isInSig f && forTask A f) = [fsig])
    (h2 : files.filter (fun f => isInDat f && forTask A f) ≠ []) :
    ∃ tA, (toTasks files).filter (fun t => t.id = A) = [tA] ∧
      tA.id = fsig.taskId ∧ tA.date = fsig.date ∧
      tA.out.isSome = (files.filter (forTask A)).any isOutFile := by
  have hfsmem : fsig ∈ files.filter (fun f => isInSig f && forTask A f) := by
    rw [h1]
    simp
  have hA : forTask A fsig := by
    have := (List.mem_filter.mp hfsmem).2
    exact (Bool.and_eq_true _ _ ▸ this).2
  have hne : files.filter (forTask A) ≠ [] :=
    List.ne_nil_of_mem (List.mem_filter.mpr ⟨(List.mem_filter.mp hfsmem).1, hA⟩)
  obtain ⟨g, hlk⟩ : ∃ g, lookupKey A (groupFiles files) = some g := by
    rw [lookupKey_groupFiles]
    cases hf : files.filter (forTask A) with
    | nil => exact absurd hf hne
    | cons f fs => exact ⟨_, rfl⟩
  obtain ⟨hsig, hdat, hout⟩ := group_content hlk
  rw [List.filter_filter, h1] at hsig
  rw [List.filter_filter] at hdat
  obtain ⟨s, hginn, hssig⟩ : ∃ s, g.inn = some s ∧ s.sig = some fsig := by
    unfold innSig at hsig
    cases hg : g.inn with
    | none => rw [hg] at hsig; simp at hsig
    | some s => rw [hg] at hsig; exact ⟨s, rfl, by simpa using hsig⟩
  obtain ⟨fdat, hsdat⟩ : ∃ fdat, s.dat = some fdat := by
    have : innDat g = (files.filter fun f => isInDat f && forTask A f).getLast? := hdat
    unfold innDat at this
    rw [hginn] at this
    cases hfd : files.filter (fun f => isInDat f && forTask A f) with
    | nil => exact absurd hfd h2
    | cons a as =>
      rw [hfd] at this
      have h3 : ((a :: as).getLast?).isSome := by
        rw [List.getLast?_isSome]
        simp
      rw [← this] at h3
      exact Option.isSome_iff_exists.mp h3
  have hmk : mkTask (A, g) = some ⟨s, g.out, fsig.date, fsig.taskId⟩ := by
    simp [mkTask, hginn, hssig, hsdat]
  refine ⟨⟨s, g.out, fsig.date, fsig.taskId⟩, ?_, rfl, rfl, ?_⟩
  · rw [toTasks_filter_id, hlk]
    simp [hmk]
  · simpa using hout

/-- A task id with no `in`/`sig` object in the listing yields no assembled
task. -/
theorem toTasks_absent {files : List TaskFile} {B : String}
    (h : files.filter (fun f => isInSig f && forTask B f) = []) :
    (toTasks files).filter (fun t => t.id = B) = [] := by
  rw [toTasks_filter_id]
  cases hlk : lookupKey B (groupFiles files) with
  | none => rfl
  | some g =>
    obtain ⟨hsig, _, _⟩ := group_content hlk
    rw [List.filter_filter, h] at hsig
    have : mkTask (B, g) = none := mkTask_eq_none_of_innSig_none (by rw [hsig]; rfl)
    simp [this]

theorem not_mem_toTasks_id {files : List TaskFile} {B : String}
    (h : (toTasks files).filter (fun t => t.id = B) = []) :
    ∀ t ∈ toTasks files, t.id ≠ B := by
  intro t ht hc
  have hm : t ∈ (toTasks files).filter (fun t => t.id = B) :=
    List.mem_filter.mpr ⟨ht, by simp [hc]⟩
  rw [h] at hm
  simp at hm

/-- Every assembled task's id is witnessed by an `in`/`sig` object of the
listing with that task id. -/
theorem toTasks_mem_sig {files : List TaskFile} {t : Task} (ht : t ∈ toTasks files) :
    ∃ fsig ∈ files, isInSig fsig ∧ fsig.taskId = t.id := by
  have ht2 : t ∈ (toTasks files).filter (fun x => x.id = t.id) :=
    List.mem_filter.mpr ⟨ht, by simp⟩
  rw [toTasks_filter_id] at ht2
  cases hlk : lookupKey t.id (groupFiles files) with
  | none =>
    rw [hlk] at ht2
    simp at ht2
  | some g =>
    rw [hlk] at ht2
    cases hmk : mkTask (t.id, g) with
    | none =>
      rw [Option.some_bind, hmk] at ht2
      simp at ht2
    | some t2 =>
      rw [Option.some_bind, hmk] at ht2
      simp only [Option.toList_some, List.mem_singleton] at ht2
      obtain ⟨hsig, _, _⟩ := group_content hlk
      obtain ⟨fsig, hfs, hdate, hid, _⟩ := mkTask_fields hmk
      rw [hfs] at hsig
      have hfsmem : fsig ∈ (files.filter (forTask t.id)).filter isInSig :=
        List.mem_of_getLast?_eq_some hsig.symm
      have hm1 := List.mem_filter.mp hfsmem
      have hm2 := List.mem_filter.mp hm1.1
      refine ⟨fsig, hm2.1, hm1.2, ?_⟩
      have : forTask t.id fsig := hm2.2
      simpa [forTask] using this

/-- The assembler output is always sorted ascending by date. -/
theorem toTasks_sorted (files : List TaskFile) :
    (toTasks files).Pairwise (fun x y => x.date ≤ y.date) := by
  have htrans : ∀ (a b c : Task), taskLE a b → taskLE b c → taskLE a c := by
    intro a b c hab hbc
    simp only [taskLE, decide_eq_true_eq] at hab hbc ⊢
    omega
  have htotal : ∀ (a b : Task), taskLE a b || taskLE b a := by
    intro a b
    simp only [taskLE]
    rcases Nat.le_total a.date b.date with h | h <;> simp [h]
  have h := List.sorted_mergeSort htrans htotal ((groupFiles files).filterMap mkTask)
  exact h.imp (by intro a b hab; simpa [taskLE] using hab)

/-- C4: for every flat listing of decoded store objects, a task group that
has an `in.dat` object but no `in.sig` object never appears in the
assembler's output; a group that has both (here: exactly one `in.sig`)
appears exactly once, with its `submittedAt` timestamp (`date`) and its `id`
taken from the `in.sig` object. -/
theorem c4_assembler_completeness (files : List TaskFile) (A B : String) (fsig : TaskFile)
    (hA : files.filter (fun f => isInSig f && forTask A f) = [fsig])
    (hAdat : files.filter (fun f => isInDat f && forTask A f) ≠ [])
    (hBdat : files.filter (fun f => isInDat f && forTask B f) ≠ [])
    (hBsig : files.filter (fun f => isInSig f && forTask B f) = []) :
    (toTasks files).countP (fun t => t.id = B) = 0 ∧
    (toTasks files).countP (fun t => t.id = A) = 1 ∧
    ((toTasks files).filter (fun t => t.id = A)).all
      (fun t => t.date = fsig.date && t.id = fsig.taskId) = true := by
  obtain ⟨tA, hfA, hid, hdate, _⟩ := toTasks_complete hA hAdat
  refine ⟨?_, ?_, ?_⟩
  · rw [List.countP_eq_length_filter, toTasks_absent hBsig]
    rfl
  · rw [List.countP_eq_length_filter, hfA]
    rfl
  · rw [hfA]
    simp [hdate, hid]

/-- Witness for C4: listing with a complete task `a` and a task `b` having
only `in.dat`. -/
theorem c4_assembler_completeness_witness :
    (toTasks [⟨3, "a", .inn, .dat, "u1"⟩, ⟨3, "a", .inn, .sig, "u2"⟩,
        ⟨4, "b", .inn, .dat, "u3"⟩]).countP (fun t => t.id = "b") = 0 ∧
    (toTasks [⟨3, "a", .inn, .dat, "u1"⟩, ⟨3, "a", .inn, .sig, "u2"⟩,
        ⟨4, "b", .inn, .dat, "u3"⟩]).countP (fun t => t.id = "a") = 1 ∧
    ((toTasks [⟨3, "a", .inn, .dat, "u1"⟩, ⟨3, "a", .inn, .sig, "u2"⟩,
        ⟨4, "b", .inn, .dat, "u3"⟩]).filter (fun t => t.id = "a")).all
      (fun t => t.date = (⟨3, "a", .inn, .sig, "u2"⟩ : TaskFile).date &&
        t.id = (⟨3, "a", .inn, .sig, "u2"⟩ : TaskFile).taskId) = true :=
  c4_assembler_completeness
    [⟨3, "a", .inn, .dat, "u1"⟩, ⟨3, "a", .inn, .sig, "u2"⟩, ⟨4, "b", .inn, .dat, "u3"⟩]
    "a" "b" ⟨3, "a", .inn, .sig, "u2"⟩
    (by decide) (by decide) (by decide) (by decide)

/-- C5: for two complete tasks with submission timestamps `T1 < T2`, for
every permutation of the listing order the assembler returns the `T1` task
before the `T2` task; and the output is sorted ascending by `submittedAt`
for every listing whatsoever. -/
theorem c5_assembler_ordering (A B u1 u2 u3 u4 : String) (T1 T2 : Nat)
    (hAB : A ≠ B) (hT : T1 < T2) (l : List TaskFile)
    (hperm : List.Perm l [⟨T1, A, .inn, .dat, u1⟩, ⟨T1, A, .inn, .sig, u2⟩,
        ⟨T2, B, .inn, .dat, u3⟩, ⟨T2, B, .inn, .sig, u4⟩]) :
    (toTasks l).map Task.id = [A, B] ∧
    (toTasks l).map Task.date = [T1, T2] ∧
    (toTasks l).Pairwise (fun x y => x.date ≤ y.date) := by
  have hBA : B ≠ A := Ne.symm hAB
  have hfA : l.filter (fun f => isInSig f && forTask A f) = [⟨T1, A, .inn, .sig, u2⟩] := by
    refine List.perm_singleton.mp ?_
    have hp := hperm.filter (fun f => isInSig f && forTask A f)
    rwa [show List.filter (fun f => isInSig f && forTask A f)
        [⟨T1, A, .inn, .dat, u1⟩, ⟨T1, A, .inn, .sig, u2⟩,
         ⟨T2, B, .inn, .dat, u3⟩, ⟨T2, B, .inn, .sig, u4⟩] =
        [⟨T1, A, .inn, .sig, u2⟩] from by simp [isInSig, forTask, hBA]] at hp
  have hfB : l.filter (fun f => isInSig f && forTask B f) = [⟨T2, B, .inn, .sig, u4⟩] := by
    refine List.perm_singleton.mp ?_
    have hp := hperm.filter (fun f => isInSig f && forTask B f)
    rwa [show List.filter (fun f => isInSig f && forTask B f)
        [⟨T1, A, .inn, .dat, u1⟩, ⟨T1, A, .inn, .sig, u2⟩,
         ⟨T2, B, .inn, .dat, u3⟩, ⟨T2, B, .inn, .sig, u4⟩] =
        [⟨T2, B, .inn, .sig, u4⟩] from by simp [isInSig, forTask, hAB]] at hp
  have hfAdat : l.filter (fun f => isInDat f && forTask A f) = [⟨T1, A, .inn, .dat, u1⟩] := by
    refine List.perm_singleton.mp ?_
    have hp := hperm.filter (fun f => isInDat f && forTask A f)
    rwa [show List.filter (fun f => isInDat f && forTask A f)
        [⟨T1, A, .inn, .dat, u1⟩, ⟨T1, A, .inn, .sig, u2⟩,
         ⟨T2, B, .inn, .dat, u3⟩, ⟨T2, B, .inn, .sig, u4⟩] =
        [⟨T1, A, .inn, .dat, u1⟩] from by simp [isInDat, forTask, hBA]] at hp
  have hfBdat : l.filter (fun f => isInDat f && forTask B f) = [⟨T2, B, .inn, .dat, u3⟩] := by
    refine List.perm_singleton.mp ?_
    have hp := hperm.filter (fun f => isInDat f && forTask B f)
    rwa [show List.filter (fun f => isInDat f && forTask B f)
        [⟨T1, A, .inn, .dat, u1⟩, ⟨T1, A, .inn, .sig, u2⟩,
         ⟨T2, B, .inn, .dat, u3⟩, ⟨T2, B, .inn, .sig, u4⟩] =
        [⟨T2, B, .inn, .dat, u3⟩] from by simp [isInDat, forTask, hAB]] at hp
  obtain ⟨ta, hta, htaid, htadate, _⟩ := toTasks_complete hfA (by rw [hfAdat]; simp)
  obtain ⟨tb, htb, htbid, htbdate, _⟩ := toTasks_complete hfB (by rw [hfBdat]; simp)
  have hids : ∀ t ∈ toTasks l, t.id = A ∨ t.id = B := by
    intro t ht
    obtain ⟨fsig, hfsl, hsigf, hfid⟩ := toTasks_mem_sig ht
    have hmem4 : fsig ∈ [(⟨T1, A, .inn, .dat, u1⟩ : TaskFile), ⟨T1, A, .inn, .sig, u2⟩,
        ⟨T2, B, .inn, .dat, u3⟩, ⟨T2, B, .inn, .sig, u4⟩] := hperm.mem_iff.mp hfsl
    simp only [List.mem_cons, List.not_mem_nil, or_false] at hmem4
    rw [← hfid]
    rcases hmem4 with h | h | h | h <;> rw [h]
    · exact Or.inl rfl
    · exact Or.inl rfl
    · exact Or.inr rfl
    · exact Or.inr rfl
  have hcA : (toTasks l).countP (fun t => t.id = A) = 1 := by
    rw [List.countP_eq_length_filter, hta]
    rfl
  have hcB : (toTasks l).countP (fun t => t.id = B) = 1 := by
    rw [List.countP_eq_length_filter, htb]
    rfl
  have hlen : (toTasks l).length = 2 := by
    have hsplit : (toTasks l).length =
        (toTasks l).countP (fun t => t.id = A) + (toTasks l).countP (fun t => t.id = B) := by
      clear hcA hcB hta htb
      generalize toTasks l = ts at hids
      induction ts with
      | nil => rfl
      | cons x rest ih =>
        have hx := hids x (by simp)
        have ih2 := ih (fun t ht => hids t (by simp [ht]))
        rw [List.countP_cons, List.countP_cons, List.length_cons, ih2]
        rcases hx with h | h
        · simp only [h, decide_eq_true_eq]
          rw [if_pos trivial, if_neg hAB]
          omega
        · simp only [h, decide_eq_true_eq]
          rw [if_neg hBA, if_pos trivial]
          omega
    rw [hsplit, hcA, hcB]
  have hsort := toTasks_sorted l
  obtain ⟨x, y, hl⟩ : ∃ x y, toTasks l = [x, y] := by
    cases hl : toTasks l with
    | nil => rw [hl] at hlen; simp at hlen
    | cons x rest =>
      cases rest with
      | nil => rw [hl] at hlen; simp at hlen
      | cons y rest2 =>
        cases rest2 with
        | nil => exact ⟨x, y, rfl⟩
        | cons z rest3 => rw [hl] at hlen; simp at hlen
  · have hx : x ∈ toTasks l := by rw [hl]; simp
    have hy : y ∈ toTasks l := by rw [hl]; simp
    rw [hl] at hta htb hsort
    have hxy : x.id = A ∧ y.id = B ∨ x.id = B ∧ y.id = A := by
      rcases hids x hx with h1 | h1 <;> rcases hids y hy with h2 | h2
      · rw [List.filter_cons, List.filter_cons, if_pos (by simp [h1]),
          if_pos (by simp [h2])] at hta
        simp at hta
      · exact Or.inl ⟨h1, h2⟩
      · exact Or.inr ⟨h1, h2⟩
      · rw [List.filter_cons, List.filter_cons, if_pos (by simp [h1]),
          if_pos (by simp [h2])] at htb
        simp at htb
    rcases hxy with ⟨h1, h2⟩ | ⟨h1, h2⟩
    · have hxa : x = ta := by
        rw [List.filter_cons, List.filter_cons, if_pos (by simp [h1]),
          if_neg (by simp [h2, hBA])] at hta
        simpa using hta
      have hyb : y = tb := by
        rw [List.filter_cons, List.filter_cons, if_neg (by simp [h1, hAB]),
          if_pos (by simp [h2])] at htb
        simpa using htb
      refine ⟨?_, ?_, toTasks_sorted l⟩
      · rw [hl]
        simp only [List.map_cons, List.map_nil]
        rw [hxa, hyb, htaid, htbid]
      · rw [hl]
        simp only [List.map_cons, List.map_nil]
        rw [hxa, hyb, htadate, htbdate]
    · have hxb : x = tb := by
        rw [List.filter_cons, List.filter_cons, if_pos (by simp [h1]),
          if_neg (by simp [h2, hAB])] at htb
        simpa using htb
      have hya : y = ta := by
        rw [List.filter_cons, List.filter_cons, if_neg (by simp [h1, hBA]),
          if_pos (by simp [h2])] at hta
        simpa using hta
      have hle : x.date ≤ y.date := by
        have hpc := List.pairwise_cons.mp hsort
        exact hpc.1 y (by simp)
      rw [hxb, hya, htadate, htbdate] at hle
      have h9 : T2 ≤ T1 := by simpa using hle
      omega

/-- Witness for C5: the two tasks listed in scrambled order are returned
oldest-first. -/
theorem c5_assembler_ordering_witness :
    (toTasks [⟨2, "b", .inn, .sig, "u4"⟩, ⟨1, "a", .inn, .dat, "u1"⟩,
        ⟨2, "b", .inn, .dat, "u3"⟩, ⟨1, "a", .inn, .sig, "u2"⟩]).map Task.id = ["a", "b"] ∧
    (toTasks [⟨2, "b", .inn, .sig, "u4"⟩, ⟨1, "a", .inn, .dat, "u1"⟩,
        ⟨2, "b", .inn, .dat, "u3"⟩, ⟨1, "a", .inn, .sig, "u2"⟩]).map Task.date = [1, 2] ∧
    (toTasks [⟨2, "b", .inn, .sig, "u4"⟩, ⟨1, "a", .inn, .dat, "u1"⟩,
        ⟨2, "b", .inn, .dat, "u3"⟩, ⟨1, "a", .inn, .sig, "u2"⟩]).Pairwise
      (fun x y => x.date ≤ y.date) :=
  c5_assembler_ordering "a" "b" "u1" "u2" "u3" "u4" 1 2 (by decide) (by decide)
    [⟨2, "b", .inn, .sig, "u4"⟩, ⟨1, "a", .inn, .dat, "u1"⟩,
     ⟨2, "b", .inn, .dat, "u3"⟩, ⟨1, "a", .inn, .sig, "u2"⟩] (by decide)

/-! ## Garbage-collector lemmas -/

/-- Full characterisation of one sweep: the surviving list is exactly the
non-expired files in listing order (regardless of delete outcomes), and the
deleted urls are exactly those of the expired files whose store delete
succeeded. -/
theorem deleteExpiredFiles_spec (exp now : Int) (delOk : String → Bool)
    (files : List TaskFile) :
    (deleteExpiredFiles exp now delOk files).1 =
      files.filter (fun f => ¬(now - (f.date : Int) > 2 * exp)) ∧
    (deleteExpiredFiles exp now delOk files).2 =
      ((files.filter (fun f => now - (f.date : Int) > 2 * exp)).filter
        (fun f => delOk f.url)).map TaskFile.url := by
  induction files with
  | nil => exact ⟨rfl, rfl⟩
  | cons f rest ih =>
    have harith : ((f.date : Int) < now - exp * 2) ↔ (now - (f.date : Int) > 2 * exp) := by
      omega
    by_cases hc : (f.date : Int) < now - exp * 2
    · have hp : now - (f.date : Int) > 2 * exp := harith.mp hc
      by_cases hd : delOk f.url
      · refine ⟨?_, ?_⟩
        · rw [deleteExpiredFiles, if_pos hc, if_pos hd]
          rw [List.filter_cons, if_neg (by simp [hp])]
          exact ih.1
        · rw [deleteExpiredFiles, if_pos hc, if_pos hd]
          rw [List.filter_cons, if_pos (by simp [hp]), List.filter_cons, if_pos (by simp [hd]),
            List.map_cons]
          rw [ih.2]
      · refine ⟨?_, ?_⟩
        · rw [deleteExpiredFiles, if_pos hc, if_neg hd]
          rw [List.filter_cons, if_neg (by simp [hp])]
          exact ih.1
        · rw [deleteExpiredFiles, if_pos hc, if_neg hd]
          rw [List.filter_cons, if_pos (by simp [hp]), List.filter_cons, if_neg (by simp [hd])]
          exact ih.2
    · have hp : ¬(now - (f.date : Int) > 2 * exp) := fun h => hc (harith.mpr h)
      refine ⟨?_, ?_⟩
      · rw [deleteExpiredFiles, if_neg hc]
        rw [List.filter_cons, if_pos (by simp [hp])]
        rw [ih.1]
      · rw [deleteExpiredFiles, if_neg hc]
        rw [List.filter_cons, if_neg (by simp [hp])]
        exact ih.2

/-- C2 (as stated in the spec) is false on the code: an expired object whose
store delete fails is dropped from the surviving set, not kept.  Concrete
input: sweep with `taskExpirationMillis = 1` at `now = 10` over an expired
object (age 10 > 2) whose delete fails and a fresh object (age 1); the sweep
is not aborted (the fresh object is still processed and returned), but the
expired object is absent from the surviving set. -/
theorem c2_sweep_failure_counterexample :
    deleteExpiredFiles 1 10 (fun _ => false)
      [⟨0, "a", .inn, .dat, "u0"⟩, ⟨9, "a", .inn, .sig, "u1"⟩] =
      ([⟨9, "a", .inn, .sig, "u1"⟩], []) ∧
    (10 : Int) - ((0 : Nat) : Int) > 2 * 1 ∧
    ⟨0, "a", .inn, .dat, "u0"⟩ ∉ (deleteExpiredFiles 1 10 (fun _ => false)
      [⟨0, "a", .inn, .dat, "u0"⟩, ⟨9, "a", .inn, .sig, "u1"⟩]).1 := by
  refine ⟨?_, by decide, ?_⟩ <;> decide

/-- C2 amended: if the store delete of an expired object fails during a
sweep, the sweep is not aborted — every non-expired object is still
processed and returned, in order — but the failed object is not kept in the
surviving set returned by the sweep (it is simply not deleted from the
store, so a later sweep sees it again). -/
theorem c2_sweep_delete_failure (exp now : Int) (delOk : String → Bool)
    (files : List TaskFile) (f : TaskFile) (hf : f ∈ files)
    (hexp : now - (f.date : Int) > 2 * exp) (hdel : delOk f.url = false) :
    (deleteExpiredFiles exp now delOk files).1 =
      files.filter (fun f => ¬(now - (f.date : Int) > 2 * exp)) ∧
    f ∉ (deleteExpiredFiles exp now delOk files).1 ∧
    f.url ∉ (deleteExpiredFiles exp now delOk files).2 := by
  obtain ⟨h1, h2⟩ := deleteExpiredFiles_spec exp now delOk files
  refine ⟨h1, ?_, ?_⟩
  · rw [h1]
    intro hm
    have := (List.mem_filter.mp hm).2
    simp only [decide_eq_true_eq] at this
    exact this hexp
  · rw [h2]
    intro hm
    obtain ⟨f2, hf2, hurl⟩ := List.mem_map.mp hm
    have hok : delOk f2.url = true := by
      simpa using (List.mem_filter.mp hf2).2
    rw [hurl] at hok
    rw [hdel] at hok
    cases hok

/-- Witness for the amended C2. -/
theorem c2_sweep_delete_failure_witness :
    (deleteExpiredFiles 1 10 (fun _ => false)
        [⟨0, "a", .inn, .dat, "u0"⟩, ⟨9, "a", .inn, .sig, "u1"⟩]).1 =
      [⟨0, "a", .inn, .dat, "u0"⟩, ⟨9, "a", .inn, .sig, "u1"⟩].filter
        (fun f => ¬((10 : Int) - (f.date : Int) > 2 * 1)) ∧
    (⟨0, "a", .inn, .dat, "u0"⟩ : TaskFile) ∉ (deleteExpiredFiles 1 10 (fun _ => false)
        [⟨0, "a", .inn, .dat, "u0"⟩, ⟨9, "a", .inn, .sig, "u1"⟩]).1 ∧
    "u0" ∉ (deleteExpiredFiles 1 10 (fun _ => false)
        [⟨0, "a", .inn, .dat, "u0"⟩, ⟨9, "a", .inn, .sig, "u1"⟩]).2 :=
  c2_sweep_delete_failure 1 10 (fun _ => false)
    [⟨0, "a", .inn, .dat, "u0"⟩, ⟨9, "a", .inn, .sig, "u1"⟩]
    ⟨0, "a", .inn, .dat, "u0"⟩ (by decide) (by decide) rfl

/-- C3: the sweep deletes exactly the objects with
`now - createdAt > 2 × taskExpirationMillis` (when deletes succeed) and
returns all others; an object one millisecond past the threshold is swept
and one a millisecond short of it is kept. -/
theorem c3_sweep_threshold (exp now : Int) (delOk : String → Bool)
    (files : List TaskFile) (hdel : ∀ f ∈ files, delOk f.url = true)
    (f1 f2 : TaskFile) (hf1 : f1 ∈ files) (hf2 : f2 ∈ files)
    (hb1 : now - (f1.date : Int) = 2 * exp + 1)
    (hb2 : now - (f2.date : Int) = 2 * exp - 1) :
    (deleteExpiredFiles exp now delOk files).1 =
      files.filter (fun f => ¬(now - (f.date : Int) > 2 * exp)) ∧
    (deleteExpiredFiles exp now delOk files).2 =
      (files.filter (fun f => now - (f.date : Int) > 2 * exp)).map TaskFile.url ∧
    f1.url ∈ (deleteExpiredFiles exp now delOk files).2 ∧
    f1 ∉ (deleteExpiredFiles exp now delOk files).1 ∧
    f2 ∈ (deleteExpiredFiles exp now delOk files).1 := by
  obtain ⟨h1, h2⟩ := deleteExpiredFiles_spec exp now delOk files
  have h2' : (deleteExpiredFiles exp now delOk files).2 =
      (files.filter (fun f => now - (f.date : Int) > 2 * exp)).map TaskFile.url := by
    rw [h2]
    congr 1
    apply List.filter_eq_self.mpr
    intro f hfm
    exact hdel f (List.mem_filter.mp hfm).1
  have hexp1 : now - (f1.date : Int) > 2 * exp := by omega
  have hexp2 : ¬(now - (f2.date : Int) > 2 * exp) := by omega
  refine ⟨h1, h2', ?_, ?_, ?_⟩
  · rw [h2']
    exact List.mem_map.mpr ⟨f1, List.mem_filter.mpr ⟨hf1, by simp [hexp1]⟩, rfl⟩
  · rw [h1]
    intro hm
    have := (List.mem_filter.mp hm).2
    simp only [decide_eq_true_eq] at this
    exact this hexp1
  · rw [h1]
    exact List.mem_filter.mpr ⟨hf2, by simp [hexp2]⟩

/-- Witness for C3 at `taskExpirationMillis = 3`, `now = 10`: an object of
date 3 (age `7 = 2*3+1`) is swept, one of date 5 (age `5 = 2*3-1`) is
kept. -/
theorem c3_sweep_threshold_witness :
    (deleteExpiredFiles 3 10 (fun _ => true)
        [⟨3, "a", .inn, .dat, "u1"⟩, ⟨5, "a", .inn, .sig, "u2"⟩]).1 =
      [⟨3, "a", .inn, .dat, "u1"⟩, ⟨5, "a", .inn, .sig, "u2"⟩].filter
        (fun f => ¬((10 : Int) - (f.date : Int) > 2 * 3)) ∧
    (deleteExpiredFiles 3 10 (fun _ => true)
        [⟨3, "a", .inn, .dat, "u1"⟩, ⟨5, "a", .inn, .sig, "u2"⟩]).2 =
      ([⟨3, "a", .inn, .dat, "u1"⟩, ⟨5, "a", .inn, .sig, "u2"⟩].filter
        (fun f => (10 : Int) - (f.date : Int) > 2 * 3)).map TaskFile.url ∧
    "u1" ∈ (deleteExpiredFiles 3 10 (fun _ => true)
        [⟨3, "a", .inn, .dat, "u1"⟩, ⟨5, "a", .inn, .sig, "u2"⟩]).2 ∧
    (⟨3, "a", .inn, .dat, "u1"⟩ : TaskFile) ∉ (deleteExpiredFiles 3 10 (fun _ => true)
        [⟨3, "a", .inn, .dat, "u1"⟩, ⟨5, "a", .inn, .sig, "u2"⟩]).1 ∧
    (⟨5, "a", .inn, .sig, "u2"⟩ : TaskFile) ∈ (deleteExpiredFiles 3 10 (fun _ => true)
        [⟨3, "a", .inn, .dat, "u1"⟩, ⟨5, "a", .inn, .sig, "u2"⟩]).1 :=
  c3_sweep_threshold 3 10 (fun _ => true)
    [⟨3, "a", .inn, .dat, "u1"⟩, ⟨5, "a", .inn, .sig, "u2"⟩]
    (by intro f hf; rfl)
    ⟨3, "a", .inn, .dat, "u1"⟩ ⟨5, "a", .inn, .sig, "u2"⟩
    (by decide) (by decide) (by decide) (by decide)

/-- An assembled task has an `out` group exactly when the listing contains
an output-direction object with its task id. -/
theorem toTasks_mem_out {files : List TaskFile} {t : Task} (ht : t ∈ toTasks files) :
    t.out.isSome = (files.filter (forTask t.id)).any isOutFile := by
  have ht2 : t ∈ (toTasks files).filter (fun x => x.id = t.id) :=
    List.mem_filter.mpr ⟨ht, by simp⟩
  rw [toTasks_filter_id] at ht2
  cases hlk : lookupKey t.id (groupFiles files) with
  | none =>
    rw [hlk] at ht2
    simp at ht2
  | some g =>
    rw [hlk, Option.some_bind] at ht2
    cases hmk : mkTask (t.id, g) with
    | none =>
      rw [hmk] at ht2
      simp at ht2
    | some t2 =>
      rw [hmk] at ht2
      simp only [Option.toList_some, List.mem_singleton] at ht2
      subst ht2
      obtain ⟨_, _, hout⟩ := group_content hlk
      obtain ⟨fsig, _, _, _, htout⟩ := mkTask_fields hmk
      rw [htout]
      exact hout

/-- C10: a task appears in the server's pending set
(`toTasks(...).filter((task) => !task.out)`) only if the listing contains no
output object of any kind for it — so a task group with a lone `out.sig`,
`out.dat` or `out.err` (e.g. left by a crash between the two result writes)
is excluded from the pending set and is never selected for execution. -/
theorem c10_pending_excludes_output (files : List TaskFile) (t : Task)
    (ht : t ∈ (toTasks files).filter (fun x => x.out.isNone)) :
    files.countP (fun f => forTask t.id f && isOutFile f) = 0 ∧
    (toTasks [⟨5, "a", .inn, .dat, "u1"⟩, ⟨5, "a", .inn, .sig, "u2"⟩,
        ⟨5, "a", .out, .sig, "u3"⟩]).filter (fun x => x.out.isNone) = [] ∧
    (toTasks [⟨5, "a", .inn, .dat, "u1"⟩, ⟨5, "a", .inn, .sig, "u2"⟩,
        ⟨5, "a", .out, .dat, "u3"⟩]).filter (fun x => x.out.isNone) = [] ∧
    (toTasks [⟨5, "a", .inn, .dat, "u1"⟩, ⟨5, "a", .inn, .sig, "u2"⟩,
        ⟨5, "a", .out, .err, "u3"⟩]).filter (fun x => x.out.isNone) = [] := by
  refine ⟨?_, ?ev1, ?ev2, ?ev3⟩
  case ev1 => simp [toTasks, groupFiles, addFile, updateGroup, setExt, mkTask]
  case ev2 => simp [toTasks, groupFiles, addFile, updateGroup, setExt, mkTask]
  case ev3 => simp [toTasks, groupFiles, addFile, updateGroup, setExt, mkTask]
  have hmem := (List.mem_filter.mp ht).1
  have hnone : t.out.isNone = true := by simpa using (List.mem_filter.mp ht).2
  have hiso : t.out.isSome = false := by
    cases ho : t.out
    · rfl
    · rw [ho] at hnone
      cases hnone
  have hany : (files.filter (forTask t.id)).any isOutFile = false := by
    rw [← toTasks_mem_out hmem]
    exact hiso
  rw [List.countP_eq_zero]
  intro f hf hc
  rw [Bool.and_eq_true] at hc
  have hfm : f ∈ files.filter (forTask t.id) := List.mem_filter.mpr ⟨hf, hc.1⟩
  rw [List.any_eq_false] at hany
  exact hany f hfm hc.2

/-- Witness for C10: the pending task of a fresh, output-less listing has no
output objects in the listing; lone-output groups are never pending. -/
theorem c10_pending_excludes_output_witness :
    [(⟨5, "a", .inn, .dat, "u1"⟩ : TaskFile), ⟨5, "a", .inn, .sig, "u2"⟩].countP
      (fun f => forTask (⟨⟨some ⟨5, "a", .inn, .dat, "u1"⟩, some ⟨5, "a", .inn, .sig, "u2"⟩,
        none⟩, none, 5, "a"⟩ : Task).id f && isOutFile f) = 0 ∧
    (toTasks [⟨5, "a", .inn, .dat, "u1"⟩, ⟨5, "a", .inn, .sig, "u2"⟩,
        ⟨5, "a", .out, .sig, "u3"⟩]).filter (fun x => x.out.isNone) = [] ∧
    (toTasks [⟨5, "a", .inn, .dat, "u1"⟩, ⟨5, "a", .inn, .sig, "u2"⟩,
        ⟨5, "a", .out, .dat, "u3"⟩]).filter (fun x => x.out.isNone) = [] ∧
    (toTasks [⟨5, "a", .inn, .dat, "u1"⟩, ⟨5, "a", .inn, .sig, "u2"⟩,
        ⟨5, "a", .out, .err, "u3"⟩]).filter (fun x => x.out.isNone) = [] :=
  c10_pending_excludes_output
    [⟨5, "a", .inn, .dat, "u1"⟩, ⟨5, "a", .inn, .sig, "u2"⟩]
    ⟨⟨some ⟨5, "a", .inn, .dat, "u1"⟩, some ⟨5, "a", .inn, .sig, "u2"⟩, none⟩, none, 5, "a"⟩
    (by simp [toTasks, groupFiles, addFile, updateGroup, setExt, mkTask])

/-- C8: when the input signature does not verify against the configured
client public key, `runTask` — without invoking the external command and
without touching the retry table — unlinks the downloaded input data file
and publishes the signed literal text `"Bad signature"` as `output.err` plus
`output.sig` under the task's name. -/
theorem c8_bad_signature_short_circuit (commandRetries : Nat) (commandOk : Bool)
    (retries : List (String × Nat)) (t : Task) :
    (runTask commandRetries false commandOk retries t).1 = retries ∧
    (runTask commandRetries false commandOk retries t).2.commandInvoked = false ∧
    (runTask commandRetries false commandOk retries t).2.inputUnlinked = true ∧
    (runTask commandRetries false commandOk retries t).2.uploads =
      [⟨⟨t.date, t.id, .out, .err, getTaskFileUrl t.date t.id .out .err⟩,
        .errText "Bad signature"⟩,
       ⟨⟨t.date, t.id, .out, .sig, getTaskFileUrl t.date t.id .out .sig⟩, .signature⟩] :=
  ⟨rfl, rfl, rfl, rfl⟩

/-- C7: for every terminal outcome of a client session that found a
resolved task (success, remote error, bad output signature, or even a
missing output file), the deletion list of `consumeTask` — the `finally`
block — is exactly the urls of every object recorded in the task, so after
deleting them no store object with the task's id remains, provided the
listing-accuracy hypothesis that every store object of that task is one of
the task's recorded objects. -/
theorem c7_cleanup_on_all_outcomes (t : Task) (fd fsg fo : TaskFile) (os : Slots)
    (hdat : t.inn.dat = some fd) (hsig : t.inn.sig = some fsg)
    (hout : t.out = some os) (hosig : os.sig = some fo)
    (store : List TaskFile)
    (hstore : ∀ f ∈ store, f.taskId = t.id → f.url ∈ taskUrls t)
    (verifyOk : Bool) :
    (consumeTask verifyOk t).2 = taskUrls t ∧
    fd.url ∈ (consumeTask verifyOk t).2 ∧
    fsg.url ∈ (consumeTask verifyOk t).2 ∧
    fo.url ∈ (consumeTask verifyOk t).2 ∧
    (os.dat.all fun od => decide (od.url ∈ (consumeTask verifyOk t).2)) = true ∧
    (os.err.all fun oe => decide (oe.url ∈ (consumeTask verifyOk t).2)) = true ∧
    (store.filter (fun f => decide (f.url ∉ (consumeTask verifyOk t).2))).countP
      (fun f => f.taskId = t.id) = 0 := by
  obtain ⟨osd, oss, ose⟩ := os
  have hoss : oss = some fo := hosig
  subst hoss
  have hdels : (consumeTask verifyOk t).2 = taskUrls t := by
    unfold consumeTask
    rw [hout]
    cases osd <;> cases ose <;> cases verifyOk <;> rfl
  refine ⟨hdels, ?_, ?_, ?_, ?_, ?_, ?_⟩ <;> rw [hdels]
  · simp [taskUrls, hdat]
  · simp [taskUrls, hsig]
  · cases osd <;> cases ose <;> simp [taskUrls, hout]
  · show (Option.all _ osd) = true
    cases osd with
    | none => rfl
    | some od => cases ose <;> simp [taskUrls, hout]
  · show (Option.all _ ose) = true
    cases ose with
    | none => rfl
    | some oe => cases osd <;> simp [taskUrls, hout]
  · rw [List.countP_eq_zero]
    intro f hf hc
    have hmem := List.mem_filter.mp hf
    have hnot : f.url ∉ taskUrls t := by simpa using hmem.2
    have hid : f.taskId = t.id := by simpa using hc
    exact hnot (hstore f hmem.1 hid)

/-- Witness task and store for C7. -/
theorem c7_cleanup_on_all_outcomes_witness :
    (consumeTask false sampleTask).2 = taskUrls sampleTask ∧
    "u1" ∈ (consumeTask false sampleTask).2 ∧
    "u2" ∈ (consumeTask false sampleTask).2 ∧
    "u4" ∈ (consumeTask false sampleTask).2 ∧
    (sampleOutSlots.dat.all fun od => decide (od.url ∈ (consumeTask false sampleTask).2)) = true ∧
    (sampleOutSlots.err.all fun oe => decide (oe.url ∈ (consumeTask false sampleTask).2)) = true ∧
    ((sampleStore.filter (fun f => decide (f.url ∉ (consumeTask false sampleTask).2))).countP
      (fun f => f.taskId = sampleTask.id) = 0) := by
  have h := c7_cleanup_on_all_outcomes sampleTask ⟨7, "a", .inn, .dat, "u1"⟩
    ⟨7, "a", .inn, .sig, "u2"⟩ ⟨7, "a", .out, .sig, "u4"⟩ sampleOutSlots rfl rfl rfl rfl
    sampleStore (by decide) false
  simpa using h

/-- If some poll cycle's clock exceeds the expiration deadline and no
earlier cycle observed a resolved task, the poll loop raises the timeout. -/
theorem pollLoop_timeout (taskExpirationMillis dt : Int) (taskId : String) :
    ∀ (cycles : List PollCycle) (k : Nat) (hk : k < cycles.length),
      taskExpirationMillis < (cycles.get ⟨k, hk⟩).now - dt →
      (∀ i (hi : i < k) (files : List TaskFile),
        (cycles.get ⟨i, Nat.lt_trans hi hk⟩).obs = some files →
          findResolvedTask taskId files = none) →
      pollLoop taskExpirationMillis dt taskId cycles =
        some (Sum.inl SessionOutcome.timedOut)
  | [], k, hk => by simp at hk
  | c :: rest, 0, hk => by
    intro hlate _
    rw [pollLoop, if_pos (by simpa using hlate)]
  | c :: rest, k + 1, hk => by
    intro hlate hbefore
    by_cases hc : taskExpirationMillis < c.now - dt
    · rw [pollLoop, if_pos hc]
    · have hlate2 : taskExpirationMillis < (rest.get ⟨k, by simpa using hk⟩).now - dt := by
        simpa using hlate
      have hbefore2 : ∀ i (hi : i < k) (files : List TaskFile),
          (rest.get ⟨i, Nat.lt_trans hi (by simpa using hk)⟩).obs = some files →
            findResolvedTask taskId files = none := by
        intro i hi files hobs
        exact hbefore (i + 1) (by omega) files (by simpa using hobs)
      have hrec := pollLoop_timeout taskExpirationMillis dt taskId rest k
        (by simpa using hk) hlate2 hbefore2
      rw [pollLoop, if_neg hc]
      cases hobs : c.obs with
      | none => exact hrec
      | some files =>
        have hfr := hbefore 0 (by omega) files (by simpa using hobs)
        show (match findResolvedTask taskId files with
          | some t => some (Sum.inr t)
          | none => pollLoop taskExpirationMillis dt taskId rest) =
            some (Sum.inl SessionOutcome.timedOut)
        rw [hfr]
        exact hrec

/-- C9: a client session whose task never resolves raises a Timeout —
deleting nothing — once a poll cycle starts after more than
`taskExpirationMillis` has elapsed since submission, the deadline being
checked once at the top of each poll cycle. -/
theorem c9_client_timeout (taskExpirationMillis dt : Int) (taskId : String)
    (verifyOk : Bool) (cycles : List PollCycle) (k : Nat) (hk : k < cycles.length)
    (hlate : taskExpirationMillis < (cycles.get ⟨k, hk⟩).now - dt)
    (hbefore : ∀ i (hi : i < k) (files : List TaskFile),
      (cycles.get ⟨i, Nat.lt_trans hi hk⟩).obs = some files →
        findResolvedTask taskId files = none) :
    clientSession taskExpirationMillis dt taskId verifyOk cycles =
      some (SessionOutcome.timedOut, []) := by
  rw [clientSession, pollLoop_timeout taskExpirationMillis dt taskId cycles k hk hlate hbefore]

/-- Witness for C9: expiration 10ms, submission at 0; a first cycle at 5ms
with an empty (unresolved) listing, a second cycle at 11ms that trips the
deadline check. -/
theorem c9_client_timeout_witness :
    clientSession 10 0 "a" true [⟨5, some []⟩, ⟨11, some []⟩] =
      some (SessionOutcome.timedOut, []) := by
  refine c9_client_timeout 10 0 "a" true [⟨5, some []⟩, ⟨11, some []⟩] 1 (by decide)
    (by decide) ?_
  intro i hi files hobs
  have hi0 : i = 0 := by omega
  subst hi0
  have hfiles : files = [] := by
    simpa using hobs.symm
  subst hfiles
  simp [findResolvedTask, toTasks, groupFiles]

/-! ## Server retry-exhaustion lemmas -/

/-- At `now = 0` with a non-negative expiration window nothing is expired,
so the sweep returns the listing unchanged. -/
theorem sweep_id_nonneg (exp : Int) (hexp : 0 ≤ exp) (delOk : String → Bool)
    (files : List TaskFile) :
    (deleteExpiredFiles exp 0 delOk files).1 = files := by
  rw [(deleteExpiredFiles_spec exp 0 delOk files).1]
  apply List.filter_eq_self.mpr
  intro f hf
  have hnn : (0 : Int) ≤ (f.date : Int) := Int.natCast_nonneg f.date
  simp only [decide_eq_true_eq]
  omega

/-- The pending set of the two-object submission store is exactly the one
assembled task. -/
theorem pending_retryStore (exp : Int) (hexp : 0 ≤ exp) (delOk : String → Bool)
    (d : Nat) (id u1 u2 : String) :
    pendingTasks exp 0 delOk (retryStore d id u1 u2) = [retryTask d id u1 u2] := by
  rw [pendingTasks, sweep_id_nonneg exp hexp]
  simp [toTasks, groupFiles, addFile, updateGroup, setExt, mkTask, retryStore, retryTask]

/-- After the error result is published, the task is no longer pending. -/
theorem pending_exhaustStore (exp : Int) (hexp : 0 ≤ exp) (delOk : String → Bool)
    (d : Nat) (id u1 u2 : String) :
    pendingTasks exp 0 delOk (exhaustStore d id u1 u2) = [] := by
  rw [pendingTasks, sweep_id_nonneg exp hexp]
  simp [toTasks, groupFiles, addFile, updateGroup, setExt, mkTask, exhaustStore, retryStore,
    retryTask, errUploads]

/-- One server iteration at a state whose pending set is `[t]` runs
`runTask` on `t` (valid signature, failing command) and appends its
uploads. -/
theorem serverIterFail_step (commandRetries : Nat) (exp now : Int)
    (delOk : String → Bool) (st : List TaskFile × List (String × Nat)) (t : Task)
    (hp : pendingTasks exp now delOk st.1 = [t]) :
    serverIterFail commandRetries exp now delOk st =
      ((st.1 ++ ((runTask commandRetries true false st.2 t).2.uploads.map Upload.file),
        (runTask commandRetries true false st.2 t).1),
        (runTask commandRetries true false st.2 t).2) := by
  unfold serverIterFail
  rw [hp]

/-- `runTask` on a failing command below the retry budget: bump the counter,
publish nothing, keep the input. -/
theorem runTask_fail_below (commandRetries : Nat) (retries : List (String × Nat))
    (t : Task) (hrc : (lookupRetry t.id retries).getD 0 < commandRetries) :
    runTask commandRetries true false retries t =
      (setRetry t.id ((lookupRetry t.id retries).getD 0 + 1) retries,
        ⟨true, false, []⟩) := by
  unfold runTask
  rw [if_pos rfl, if_neg (by simp), if_neg (show ¬ commandRetries ≤
    (lookupRetry t.id retries).getD 0 by omega)]

/-- `runTask` on a failing command at the retry budget: drop the counter,
unlink the input, publish the signed error. -/
theorem runTask_fail_exhaust (commandRetries : Nat) (retries : List (String × Nat))
    (t : Task) (hrc : (lookupRetry t.id retries).getD 0 = commandRetries) :
    runTask commandRetries true false retries t =
      (removeRetry t.id (setRetry t.id (commandRetries + 1) retries),
        ⟨true, true, errUploads t commandErrorText⟩) := by
  unfold runTask
  rw [if_pos rfl, if_neg (by simp), if_pos (show commandRetries ≤
    (lookupRetry t.id retries).getD 0 by omega), hrc]

/-- The server state after `k ≤ commandRetries` failing attempts: the store
is unchanged and the process-local retry counter for the task is `k`. -/
theorem iterFail_state (R : Nat) (exp : Int) (hexp : 0 ≤ exp) (delOk : String → Bool)
    (d : Nat) (id u1 u2 : String) :
    ∀ k, k ≤ R →
      iterFail R exp delOk (retryStore d id u1 u2) k =
        (retryStore d id u1 u2, if k = 0 then [] else [(id, k)])
  | 0, _ => rfl
  | k + 1, hk => by
    have ih := iterFail_state R exp hexp delOk d id u1 u2 k (by omega)
    rw [iterFail, ih]
    rw [serverIterFail_step R exp 0 delOk _ (retryTask d id u1 u2)
      (by exact pending_retryStore exp hexp delOk d id u1 u2)]
    have hid : (retryTask d id u1 u2).id = id := rfl
    by_cases hk0 : k = 0
    · subst hk0
      rw [if_pos rfl]
      rw [runTask_fail_below R [] (retryTask d id u1 u2) (by simp [lookupRetry, hid]; omega)]
      simp [setRetry, hid, lookupRetry]
    · rw [if_neg hk0]
      rw [runTask_fail_below R [(id, k)] (retryTask d id u1 u2)
        (by simp [lookupRetry, hid]; omega)]
      simp [setRetry, hid, lookupRetry]

/-- C1: with retry budget `commandRetries = R` and an always-failing
command, after each of the first `R` failing attempts (`k < R`) the server
publishes nothing, does not delete the downloaded input, leaves the store
unchanged (the task stays pending with its retry counter at the attempt
count); the `(R+1)`-th failing attempt (`k = R`) unlinks the input,
publishes exactly one signed `output.err` plus `output.sig` pair, removes
the retry-counter entry, and the task stops being pending. -/
theorem c1_retry_exhaustion (R k : Nat) (hk : k ≤ R) (exp : Int) (hexp : 0 ≤ exp)
    (delOk : String → Bool) (d : Nat) (id u1 u2 : String) :
    pendingTasks exp 0 delOk (retryStore d id u1 u2) = [retryTask d id u1 u2] ∧
    iterFail R exp delOk (retryStore d id u1 u2) k =
      (retryStore d id u1 u2, if k = 0 then [] else [(id, k)]) ∧
    (serverIterFail R exp 0 delOk (iterFail R exp delOk (retryStore d id u1 u2) k)).2 =
      (if k < R then ⟨true, false, []⟩
       else ⟨true, true, errUploads (retryTask d id u1 u2) commandErrorText⟩) ∧
    iterFail R exp delOk (retryStore d id u1 u2) (k + 1) =
      (if k < R then (retryStore d id u1 u2, [(id, k + 1)])
       else (exhaustStore d id u1 u2, [])) ∧
    (exhaustStore d id u1 u2).countP
      (fun f => forTask id f && isOutFile f && f.ext = Ext.err) = 1 ∧
    (exhaustStore d id u1 u2).countP
      (fun f => forTask id f && isOutFile f && f.ext = Ext.sig) = 1 ∧
    pendingTasks exp 0 delOk (exhaustStore d id u1 u2) = [] := by
  have hid : (retryTask d id u1 u2).id = id := rfl
  have hstate := iterFail_state R exp hexp delOk d id u1 u2 k hk
  have hstep := serverIterFail_step R exp 0 delOk
    (retryStore d id u1 u2, if k = 0 then [] else [(id, k)]) (retryTask d id u1 u2)
    (pending_retryStore exp hexp delOk d id u1 u2)
  have hrc : (lookupRetry (retryTask d id u1 u2).id
      ((if k = 0 then [] else [(id, k)]) : List (String × Nat))).getD 0 = k := by
    by_cases hk0 : k = 0
    · subst hk0
      simp [lookupRetry]
    · rw [if_neg hk0]
      simp [lookupRetry, hid]
  refine ⟨pending_retryStore exp hexp delOk d id u1 u2, hstate, ?_, ?_, ?_, ?_,
    pending_exhaustStore exp hexp delOk d id u1 u2⟩
  · rw [hstate, hstep]
    by_cases hkR : k < R
    · rw [if_pos hkR, runTask_fail_below R _ _ (by rw [hrc]; omega)]
    · have hkeq : k = R := by omega
      subst hkeq
      rw [if_neg hkR, runTask_fail_exhaust k _ _ (by rw [hrc])]
  · rw [iterFail, hstate, hstep]
    by_cases hkR : k < R
    · rw [if_pos hkR, runTask_fail_below R _ _ (by rw [hrc]; omega)]
      rw [hrc]
      simp [setRetry, hid]
      by_cases hk0 : k = 0
      · subst hk0
        simp [setRetry]
      · rw [if_neg hk0]
        simp [setRetry]
    · have hkeq : k = R := by omega
      subst hkeq
      rw [if_neg hkR, runTask_fail_exhaust k _ _ (by rw [hrc])]
      rw [Prod.ext_iff]
      refine ⟨rfl, ?_⟩
      by_cases hk0 : k = 0
      · subst hk0
        simp [setRetry, removeRetry, hid]
      · rw [if_neg hk0]
        simp [setRetry, removeRetry, hid]
  · simp [exhaustStore, retryStore, errUploads, retryTask, forTask, isOutFile,
      List.countP_cons]
  · simp [exhaustStore, retryStore, errUploads, retryTask, forTask, isOutFile,
      List.countP_cons]

/-- Witness for C1 with `commandRetries = 2` after attempt `k = 1`. -/
theorem c1_retry_exhaustion_witness :
    pendingTasks 5 0 (fun _ => true) (retryStore 7 "a" "x" "y") =
      [retryTask 7 "a" "x" "y"] ∧
    iterFail 2 5 (fun _ => true) (retryStore 7 "a" "x" "y") 1 =
      (retryStore 7 "a" "x" "y", if 1 = 0 then [] else [("a", 1)]) ∧
    (serverIterFail 2 5 0 (fun _ => true)
        (iterFail 2 5 (fun _ => true) (retryStore 7 "a" "x" "y") 1)).2 =
      (if 1 < 2 then ⟨true, false, []⟩
       else ⟨true, true, errUploads (retryTask 7 "a" "x" "y") commandErrorText⟩) ∧
    iterFail 2 5 (fun _ => true) (retryStore 7 "a" "x" "y") 2 =
      (if 1 < 2 then (retryStore 7 "a" "x" "y", [("a", 2)])
       else (exhaustStore 7 "a" "x" "y", [])) ∧
    (exhaustStore 7 "a" "x" "y").countP
      (fun f => forTask "a" f && isOutFile f && f.ext = Ext.err) = 1 ∧
    (exhaustStore 7 "a" "x" "y").countP
      (fun f => forTask "a" f && isOutFile f && f.ext = Ext.sig) = 1 ∧
    pendingTasks 5 0 (fun _ => true) (exhaustStore 7 "a" "x" "y") = [] :=
  c1_retry_exhaustion 2 1 (by omega) 5 (by omega) (fun _ => true) 7 "a" "x" "y"

end RunRemoteTask
